import Mathlib

/-!
Verification of the file-backed object store engine (package `filestore`).

The engine keeps one on-disk file per bucket, holding a concatenation of
records `<objId> <decimal payload length> <payload bytes>\n`, together with an
in-memory index: per bucket, a map from object id to `(offset, metaSize, size)`
plus the physical (file-order) chain of records.

The shallow embedding below models:
  * bytes as `Nat` (file contents as `List Nat`); Go strings are byte
    sequences, and for the ASCII identifiers in scope `Char.toNat` coincides
    with the Go bytes of the string;
  * the record codec (`fmt.Sprintf "%s %d "` header, payload, `'\n'`);
  * the in-memory metadata (`objectMetadata` offsets/sizes as `Int`, matching
    `int64`; the doubly-linked prev/next chain as a list in physical order,
    whose adjacency encodes the `prev`/`next` pointers and whose keys are the
    keys of the `objects` map);
  * the store state as a function from bucket id to an optional bucket
    (registry entry together with the bytes of its `.dat` file);
  * `Store` / `Retrieve` / `Delete`, parameterised by an injected I/O failure
    point so that the error paths of the Go code (temp-file creation, copy,
    write, rename, remove failures) are represented;
  * the bootstrap loader `getObjectsMetadata` (sequential record parsing with
    `bufio.ReadString ' '`, `strconv.ParseInt`, `Discard`), and
  * the FNV-1 32-bit stripe-lock index `bucketIdToMutexIndex`.
-/

namespace Objstore

/-- Byte 32, the space separating the fields of a record header. -/
def spaceByte : Nat := 32

/-- Byte 10, the `separator` constant of the Go code (record terminator). -/
def sepByte : Nat := 10

/-- `numMutexes`: the fixed number of stripe locks. -/
def numMutexes : Nat := 100

/-- The bytes of a Go string (character codes; identical to the UTF-8 bytes
for the ASCII identifiers the service accepts). -/
def strBytes (s : String) : List Nat := s.data.map Char.toNat

/-- Rebuild a string from bytes (inverse of `strBytes` on valid data). -/
def bytesToStr (bs : List Nat) : String := String.mk (bs.map Char.ofNat)

/-- Decimal digit loop with explicit fuel (any fuel above `n` is enough,
since `n / 10 < n` for `n ≥ 10`; structural recursion keeps it computable
by kernel reduction). -/
def natDigitsGo : Nat → Nat → List Nat
  | 0, _ => []
  | fuel + 1, n =>
    if n < 10 then [48 + n]
    else natDigitsGo fuel (n / 10) ++ [48 + n % 10]

/-- Decimal digits of a natural number, as bytes, most significant first:
the bytes `fmt.Sprintf "%d" n` produces for a non-negative length. -/
def natDigits (n : Nat) : List Nat := natDigitsGo (n + 1) n

/-- Accumulating decimal value of a digit-byte list; `none` on a non-digit.
Mirrors the digit loop of `strconv.ParseInt` (base 10). -/
def digitsVal : Nat → List Nat → Option Nat
  | acc, [] => some acc
  | acc, b :: r =>
    if 48 ≤ b ∧ b ≤ 57 then digitsVal (acc * 10 + (b - 48)) r else none

/-- `strconv.ParseInt s 10 64` on a byte string: an optional sign followed by
at least one decimal digit. -/
def parseIntBytes : List Nat → Option Int
  | [] => none
  | b :: r =>
    if b = 43 then
      match r with
      | [] => none
      | _ => (digitsVal 0 r).map Int.ofNat
    else if b = 45 then
      match r with
      | [] => none
      | _ => (digitsVal 0 r).map (fun n => -(n : Int))
    else (digitsVal 0 (b :: r)).map Int.ofNat

/-- Split a byte list at its first space byte: the semantics of
`bufio.Reader.ReadString ' '` (`some (before, after)` when a space is found,
`none` when EOF is reached first — including on empty input). -/
def splitAtSpace : List Nat → Option (List Nat × List Nat)
  | [] => none
  | b :: rest =>
    if b = spaceByte then some ([], rest)
    else (splitAtSpace rest).map (fun p => (b :: p.1, p.2))

/-- In-memory metadata of one object: the `objectMetadata` struct
(`offset`, `metaSize`, `size` are `int64` in Go; the `prev`/`next` pointers
are represented by adjacency in the per-bucket chain list). -/
structure ObjMeta where
  offset : Int
  metaSize : Int
  size : Int
deriving DecidableEq, Repr

/-- Header size written by `appendObjectToBucketFile`:
`len (Sprintf "%s %d " objId n) - 1 = len objId + len (digits n) + 1`. -/
def metaSizeOf (objId : String) (n : Nat) : Int :=
  ((strBytes objId).length : Int) + (natDigits n).length + 1

/-- The bytes of the Go `metaStr`: `<objId> <decimal n> ` (note the two
spaces). -/
def metaStr (objId : String) (n : Nat) : List Nat :=
  strBytes objId ++ spaceByte :: natDigits n ++ [spaceByte]

/-- On-disk encoding of one record:
`<objId> <decimal payload length> <payload>\n`. -/
def encodeRecord (objId : String) (payload : List Nat) : List Nat :=
  strBytes objId ++ spaceByte :: natDigits payload.length
    ++ spaceByte :: payload ++ [sepByte]

/-- A registered bucket: the contents of its on-disk `.dat` file together
with its in-memory metadata chain (`objects` map plus `prev`/`next` physical
ordering, as a list in file order). `file = some bytes` when the bucket file
exists on disk with those bytes; `file = none` when the registry entry exists
but the file does not — the state `Store` leaves behind when `os.OpenFile`
fails while creating a new bucket's file (part_003 lines 101-106: the
registry is mutated first, the file created second). -/
structure Bucket where
  file : Option (List Nat)
  chain : List (String × ObjMeta)
deriving DecidableEq, Repr

/-- The store state: the bucket registry `f.buckets` (with, for each
registered bucket, its on-disk file contents). -/
def FS : Type := String → Option Bucket

/-- Registry update (insertion when `v = some _`, removal when `v = none`). -/
def update (fs : FS) (k : String) (v : Option Bucket) : FS :=
  fun q => if q = k then v else fs q

/-- The empty registry (fresh store over an empty directory). -/
def fsEmpty : FS := fun _ => none

/-- A freshly created bucket: registry entry with empty `objects` map and the
empty `.dat` file created by `os.OpenFile(..., O_CREATE|O_TRUNC, ...)`. -/
def emptyBucket : Bucket := ⟨some [], []⟩

/-- A registered bucket whose file was never created: the post state of the
new-bucket `Store` path when `os.OpenFile` fails after the registry has
already been mutated (`f.buckets[bucketId] = bucketMeta` precedes the file
creation). -/
def bucketNoFile : Bucket := ⟨Option.none, []⟩

/-- Lookup in the `objects` map of a bucket (keys of the chain list are
exactly the keys of the Go map). -/
def chainLookup : List (String × ObjMeta) → String → Option ObjMeta
  | [], _ => none
  | (k, m) :: tl, objId => if k = objId then some m else chainLookup tl objId

/-- Add `d` to the offset of every entry: the
`for nextObj := ...; nextObj = nextObj.next { nextObj.offset += d }` loops. -/
def shiftChain (d : Int) (c : List (String × ObjMeta)) :
    List (String × ObjMeta) :=
  c.map (fun p => (p.1, ⟨p.2.offset + d, p.2.metaSize, p.2.size⟩))

/-- Metadata update after a committed replacing `Store` (lines 162-171 of the
Go code): if the payload size changed, rewrite the entry's `metaSize`/`size`
and shift every physically later entry by the encoded-size delta; otherwise
leave the chain untouched. -/
def storeUpdateChain (objId : String) (nms nsz : Int) :
    List (String × ObjMeta) → List (String × ObjMeta)
  | [] => []
  | (k, m) :: tl =>
    if k = objId then
      if nsz = m.size then (k, m) :: tl
      else (k, ⟨m.offset, nms, nsz⟩) ::
        shiftChain (nms + nsz - m.metaSize - m.size) tl
    else (k, m) :: storeUpdateChain objId nms nsz tl

/-- Metadata update after a committed multi-object `Delete`: drop the entry
and shift every physically later entry by `-(metaSize + size + 2)`. -/
def deleteFromChain (objId : String) :
    List (String × ObjMeta) → List (String × ObjMeta)
  | [] => []
  | (k, m) :: tl =>
    if k = objId then shiftChain (-(m.metaSize + m.size + 2)) tl
    else (k, m) :: deleteFromChain objId tl

/-- `appendObjectToBucketFile obj objId file (-1)`: append the encoded record
at end of file; returns the new file plus `(offset, metaSize, size)`. -/
def appendObject (obj : List Nat) (objId : String) (file : List Nat) :
    List Nat × Int × Int × Int :=
  (file ++ encodeRecord objId obj, (file.length : Int),
    metaSizeOf objId obj.length, (obj.length : Int))

/-- `replaceObjectInBucketFile obj objId objMeta bfName tmpFile`: copy
`[0, offset)` of the old file, then (for `obj = some o`) either re-encode the
record in place (size changed: `appendObjectToBucketFile` at the current
position) or copy the old header and write the new payload (size unchanged),
or (for `obj = none`, the delete path) write nothing; then copy everything
after the old record (`Seek` to `offset + metaSize + size + 2`). Returns the
rewritten file plus `(newMetaSize, newObjSize)`. -/
def replaceObject (obj : Option (List Nat)) (objId : String) (m : ObjMeta)
    (bf : List Nat) : List Nat × Int × Int :=
  let firstPart := bf.take m.offset.toNat
  let lastPart := bf.drop (m.offset + m.metaSize + m.size + 2).toNat
  match obj with
  | none => (firstPart ++ lastPart, 0, 0)
  | some o =>
    if (o.length : Int) ≠ m.size then
      (firstPart ++ encodeRecord objId o ++ lastPart,
        metaSizeOf objId o.length, (o.length : Int))
    else
      (firstPart ++ (bf.drop m.offset.toNat).take (m.metaSize + 1).toNat
          ++ o ++ [sepByte] ++ lastPart,
        0, (o.length : Int))

/-- Injected I/O failure point. `none` is a failure-free run; the others make
the corresponding group of system calls fail: the `os.OpenFile` that creates
a new bucket's empty file, temp-file creation (`ioutil.TempFile`), the copy
of the old bucket file into the temp file, the write of the appended record,
any injected I/O failure inside `replaceObjectInBucketFile`, the commit
`os.Rename`, `os.Remove` of a sole-object bucket file (which also fails
organically when the file is missing), and the open/`ReadAt` of `Retrieve`.
Failures of `os.Open` on a bucket file that does not exist on disk are not
injected but organic: the operations below check `Bucket.file` directly. -/
inductive IoFail
  | none | createFile | tempFile | copyOld | writeRecord | replaceErr
  | rename | removeFile | readObj
deriving DecidableEq, Repr

/-- `FileStore.Store obj objId bucketId` under injected failure `fail`.
Result: `Except.ok replaced` or `Except.error ()`, plus the post state.
In the new-bucket branch the Go code mutates the registry first
(`f.buckets[bucketId] = bucketMeta`, line 101) and creates the empty bucket
file second (`os.OpenFile`, line 103), so a `createFile` failure errors with
the registry entry present but no file, and the later failures (temp file,
record write, rename) error with the registry entry and the empty file both
present. On an existing bucket whose file is missing from disk, the
`os.Open` of the bucket file (for the copy, or inside
`replaceObjectInBucketFile`) fails organically. -/
def StoreF (fail : IoFail) (obj : List Nat) (objId bucketId : String)
    (fs : FS) : Except Unit Bool × FS :=
  match fs bucketId with
  | Option.none =>
    let fs1 := update fs bucketId (some bucketNoFile)
    if fail = .createFile then (.error (), fs1)
    else
      let fs2 := update fs1 bucketId (some emptyBucket)
      if fail = .tempFile ∨ fail = .writeRecord ∨ fail = .rename then
        (.error (), fs2)
      else
        let r := appendObject obj objId []
        (.ok false, update fs2 bucketId
          (some ⟨some r.1, [(objId, ⟨r.2.1, r.2.2.1, r.2.2.2⟩)]⟩))
  | some bk =>
    if fail = .tempFile then (.error (), fs)
    else
      match chainLookup bk.chain objId with
      | Option.none =>
        match bk.file with
        | Option.none => (.error (), fs)
        | some bytes =>
          if fail = .copyOld ∨ fail = .writeRecord then (.error (), fs)
          else
            let r := appendObject obj objId bytes
            if fail = .rename then (.error (), fs)
            else
              (.ok false, update fs bucketId
                (some ⟨some r.1,
                  bk.chain ++ [(objId, ⟨r.2.1, r.2.2.1, r.2.2.2⟩)]⟩))
      | some m =>
        match bk.file with
        | Option.none => (.error (), fs)
        | some bytes =>
          if fail = .replaceErr then (.error (), fs)
          else
            let r := replaceObject (some obj) objId m bytes
            if fail = .rename then (.error (), fs)
            else
              (.ok true, update fs bucketId
                (some ⟨some r.1,
                  storeUpdateChain objId r.2.1 r.2.2 bk.chain⟩))

/-- `FileStore.Delete objId bucketId` under injected failure `fail`.
A sole-object bucket is removed outright (no temp-file rewrite: the temp,
replace and rename failure points are never reached on that path); when
`os.Remove` itself fails, the Go code still returns `(true, nil)` and keeps
both the registry entry and the file. -/
def DeleteF (fail : IoFail) (objId bucketId : String) (fs : FS) :
    Except Unit Bool × FS :=
  match fs bucketId with
  | Option.none => (.ok false, fs)
  | some bk =>
    match chainLookup bk.chain objId with
    | Option.none => (.ok false, fs)
    | some m =>
      if bk.chain.length = 1 then
        if fail = .removeFile then (.ok true, fs)
        else (.ok true, update fs bucketId Option.none)
      else
        if fail = .tempFile ∨ fail = .replaceErr then (.error (), fs)
        else
          match bk.file with
          | Option.none => (.error (), fs)
          | some bytes =>
            let r := replaceObject Option.none objId m bytes
            if fail = .rename then (.error (), fs)
            else (.ok true, update fs bucketId
              (some ⟨some r.1, deleteFromChain objId bk.chain⟩))

/-- Result of `FileStore.Retrieve`: `(obj, found, err)`. -/
structure RetResult where
  obj : Option (List Nat)
  found : Bool
  err : Bool
deriving DecidableEq, Repr

/-- `FileStore.Retrieve objId bucketId` under injected failure `fail`:
absence of bucket or object is `(nil, false, nil)`; otherwise read exactly
`size` bytes at `offset + metaSize + 1` (`ReadAt` fails when fewer bytes are
available). `Retrieve` never mutates the state, so no state is returned. -/
def RetrieveF (fail : IoFail) (objId bucketId : String) (fs : FS) :
    RetResult :=
  match fs bucketId with
  | Option.none => ⟨Option.none, false, false⟩
  | some bk =>
    match chainLookup bk.chain objId with
    | Option.none => ⟨Option.none, false, false⟩
    | some m =>
      if fail = .readObj then ⟨Option.none, false, true⟩
      else
        match bk.file with
        | Option.none => ⟨Option.none, false, true⟩
        | some bytes =>
          let start := m.offset + m.metaSize + 1
          if start < 0 ∨ (bytes.length : Int) < start + m.size then
            ⟨Option.none, false, true⟩
          else
            ⟨some ((bytes.drop start.toNat).take m.size.toNat), true, false⟩

/-- Failure-free `Store`. -/
def Store (obj : List Nat) (objId bucketId : String) (fs : FS) :
    Except Unit Bool × FS :=
  StoreF .none obj objId bucketId fs

/-- Failure-free `Retrieve`. -/
def Retrieve (objId bucketId : String) (fs : FS) : RetResult :=
  RetrieveF .none objId bucketId fs

/-- Failure-free `Delete`. -/
def Delete (objId bucketId : String) (fs : FS) : Except Unit Bool × FS :=
  DeleteF .none objId bucketId fs

/-- A successful engine mutation, for reasoning about operation sequences. -/
inductive Op
  | store (obj : List Nat) (objId bucketId : String)
  | del (objId bucketId : String)

/-- State reached after one successful operation. -/
def applyOp : Op → FS → FS
  | .store obj objId bucketId, fs => (Store obj objId bucketId fs).2
  | .del objId bucketId, fs => (Delete objId bucketId fs).2

/-- State reached after a sequence of successful operations. -/
def runOps (ops : List Op) (fs : FS) : FS :=
  ops.foldl (fun s op => applyOp op s) fs

/-- One iteration of the `getObjectsMetadata` loop, with explicit fuel (the
loop consumes at least two bytes per iteration, so any fuel above the input
length is enough; `parseRecs` below supplies it). `ReadString ' '` hitting
EOF before the first space of a record ends the loop (`err == io.EOF` →
`break`); EOF while reading the size field, a size field `ParseInt` rejects,
a negative `Discard` count, or fewer remaining bytes than declared are
errors. The record terminator is skipped by count, never inspected. -/
def parseGo : Nat → List Nat → Int → Except Unit (List (String × ObjMeta))
  | 0, _, _ => .error ()
  | fuel + 1, bytes, off =>
    match splitAtSpace bytes with
    | Option.none => .ok []
    | some (idB, rest1) =>
      match splitAtSpace rest1 with
      | Option.none => .error ()
      | some (szB, rest2) =>
        match parseIntBytes szB with
        | Option.none => .error ()
        | some sz =>
          if sz + 1 < 0 then .error ()
          else if rest2.length < (sz + 1).toNat then .error ()
          else
            match parseGo fuel (rest2.drop ((sz + 1).toNat))
                (off + ((idB.length : Int) + szB.length + 1) + sz + 2) with
            | .error e => .error e
            | .ok tl =>
              .ok ((bytesToStr idB,
                ⟨off, (idB.length : Int) + szB.length + 1, sz⟩) :: tl)

/-- `getObjectsMetadata`: sequentially parse the records of a bucket file
starting at offset `off`, reconstructing the metadata chain in physical
order (the chain list carries the map, the `lastObject` pointer — its last
element — and the `prev`/`next` links — its adjacency). -/
def parseRecs (bytes : List Nat) (off : Int) :
    Except Unit (List (String × ObjMeta)) :=
  parseGo (bytes.length + 1) bytes off

/-- The FNV-1 32-bit hash (`fnv.New32` then `Write`): for each byte,
multiply by the FNV prime modulo `2^32`, then xor the byte in. -/
def fnv32 (bytes : List Nat) : Nat :=
  bytes.foldl (fun h b => ((h * 16777619) % 2 ^ 32) ^^^ b) 2166136261

/-- The result of `hash.Hash.Write` for the FNV hash: it writes all bytes and
never returns an error (contract of `hash.Hash` in the Go standard library;
modelled from the spec of that external interface). -/
def hashWriteResult (bytes : List Nat) : Nat × Option Unit :=
  (bytes.length, Option.none)

/-- `bucketIdToMutexIndex`: FNV-1 hash of the bucket id modulo `numMutexes`,
with the two (dead) error branches guarding a short or failed `Write`. -/
def bucketIdToMutexIndex (bucketId : String) : Except Unit Nat :=
  let bs := strBytes bucketId
  let r := hashWriteResult bs
  if r.1 < bs.length then .error ()
  else
    match r.2 with
    | some _ => .error ()
    | Option.none => .ok (fnv32 bs % numMutexes)

/-- The identifier alphabet `[a-z0-9_-]` of the REST boundary. -/
def validChar (c : Char) : Bool :=
  (97 ≤ c.toNat && c.toNat ≤ 122) || (48 ≤ c.toNat && c.toNat ≤ 57)
    || c.toNat = 95 || c.toNat = 45

/-- An identifier matching `[a-z0-9_-]+`. -/
def validId (s : String) : Bool := !s.data.isEmpty && s.data.all validChar

/-- The keys of a metadata chain (the keys of the `objects` map). -/
def keysOf (c : List (String × ObjMeta)) : List String := c.map Prod.fst

/-- `chainEnc c off bytes`: the metadata chain `c` describes exactly the byte
string `bytes` laid out starting at file offset `off` — each entry records
the offset where its record starts, the correct header size, the correct
payload size, and the records are contiguous with nothing after the last. -/
def chainEnc : List (String × ObjMeta) → Int → List Nat → Prop
  | [], _, bytes => bytes = []
  | (oid, m) :: tl, off, bytes =>
    ∃ payload rest,
      m.offset = off ∧
      m.size = (payload.length : Int) ∧
      m.metaSize = metaSizeOf oid payload.length ∧
      bytes = encodeRecord oid payload ++ rest ∧
      chainEnc tl (off + m.metaSize + m.size + 2) rest

/-- The spec's layout invariant on a chain starting at `off`: each entry sits
at the running offset and the next entry starts `metaSize + size + 2` bytes
later (one separator after the header, one terminator after the payload). -/
def chainLayout : Int → List (String × ObjMeta) → Prop
  | _, [] => True
  | off, (_, m) :: tl =>
    m.offset = off ∧ chainLayout (off + m.metaSize + m.size + 2) tl

/-- Well-formedness of a committed bucket: the bucket file exists on disk
and the chain describes its bytes from offset 0, the object keys are
distinct, and all stored ids are valid. -/
def bucketWF (bk : Bucket) : Prop :=
  (∃ bytes, bk.file = some bytes ∧ chainEnc bk.chain 0 bytes) ∧
    (keysOf bk.chain).Nodup ∧ ∀ p ∈ bk.chain, validId p.1 = true

/-- Well-formedness of a store state: every registered bucket is well formed. -/
def fsWF (fs : FS) : Prop := ∀ bid bk, fs bid = some bk → bucketWF bk

/-- `recShape off bytes e rest`: the bytes start with something the loader
accepts as one record for entry `e` at offset `off`, continuing with `rest`.
Unlike `chainEnc` this allows a size field with leading zeros or a sign, and
does not constrain the terminator byte — exactly what the loader checks. -/
def recShape (off : Int) (bytes : List Nat) (e : String × ObjMeta)
    (rest : List Nat) : Prop :=
  ∃ idB szB sz body,
    spaceByte ∉ idB ∧ spaceByte ∉ szB ∧
    e.1 = bytesToStr idB ∧
    parseIntBytes szB = some sz ∧
    e.2 = ⟨off, (idB.length : Int) + szB.length + 1, sz⟩ ∧
    0 ≤ sz + 1 ∧ (body.length : Int) = sz + 1 ∧
    bytes = idB ++ spaceByte :: szB ++ spaceByte :: body ++ rest

/-- `parsedChain c off bytes frag`: the loader can split `bytes` into the
records of `c` (in the weak per-record sense of `recShape`) followed by the
leftover `frag`. -/
def parsedChain : List (String × ObjMeta) → Int → List Nat → List Nat → Prop
  | [], _, bytes, frag => bytes = frag
  | e :: tl, off, bytes, frag =>
    ∃ rest, recShape off bytes e rest ∧
      parsedChain tl (off + e.2.metaSize + e.2.size + 2) rest frag

/-- The boundary-layer guarantee on an operation: stored identifiers match
`[a-z0-9_-]+` (the REST router rejects anything else before the engine is
called). -/
def opValid : Op → Prop
  | .store _ objId _ => validId objId = true
  | .del _ _ => True

/-- Concrete scenario: bucket `b` holding only `o1 ↦ "a"`. -/
def fsOneObj : FS := (Store (strBytes "a") "o1" "b" fsEmpty).2

/-- Concrete scenario: bucket `b` holding `o1 ↦ "a"` then `o2 ↦ "bbb"`
(spec §8, scenario 3 before the delete). -/
def fsTwoObjs : FS := (Store (strBytes "bbb") "o2" "b" fsOneObj).2

end Objstore

namespace Objstore

theorem encodeRecord_length (objId : String) (payload : List Nat) :
    (encodeRecord objId payload).length =
      (metaSizeOf objId payload.length + payload.length + 2).toNat := by
  simp [encodeRecord, metaSizeOf]
  omega

theorem encodeRecord_length_int (objId : String) (payload : List Nat) :
    ((encodeRecord objId payload).length : Int) =
      metaSizeOf objId payload.length + payload.length + 2 := by
  simp [encodeRecord, metaSizeOf]
  ring

theorem encodeRecord_eq_metaStr (objId : String) (payload : List Nat) :
    encodeRecord objId payload =
      metaStr objId payload.length ++ payload ++ [sepByte] := by
  simp [encodeRecord, metaStr]

theorem metaStr_length (objId : String) (n : Nat) :
    ((metaStr objId n).length : Int) = metaSizeOf objId n + 1 := by
  simp [metaStr, metaSizeOf]
  ring

theorem splitAtSpace_some {bytes a r : List Nat}
    (h : splitAtSpace bytes = some (a, r)) :
    bytes = a ++ spaceByte :: r ∧ spaceByte ∉ a := by
  induction bytes generalizing a r with
  | nil => simp [splitAtSpace] at h
  | cons b tl ih =>
    by_cases hb : b = spaceByte
    · subst hb
      have hc : splitAtSpace (spaceByte :: tl) = some ([], tl) := by
        simp [splitAtSpace]
      rw [hc] at h
      injection h with h
      injection h with h1 h2
      subst h1; subst h2
      simp
    · cases htl : splitAtSpace tl with
      | none =>
        have hc : splitAtSpace (b :: tl) = Option.none := by
          simp [splitAtSpace, hb, htl]
        rw [hc] at h
        exact absurd h (by simp)
      | some p =>
        obtain ⟨p1, p2⟩ := p
        have hc : splitAtSpace (b :: tl) = some (b :: p1, p2) := by
          simp [splitAtSpace, hb, htl]
        rw [hc] at h
        injection h with h
        injection h with h1 h2
        subst h1; subst h2
        obtain ⟨ih1, ih2⟩ := ih htl
        refine ⟨by rw [ih1]; rfl, ?_⟩
        simp only [List.mem_cons, not_or]
        exact ⟨fun hx => hb (Eq.symm hx), ih2⟩

theorem splitAtSpace_some_length {bytes a r : List Nat}
    (h : splitAtSpace bytes = some (a, r)) : r.length < bytes.length := by
  have := (splitAtSpace_some h).1
  subst this
  simp
  omega

theorem splitAtSpace_mem {bytes : List Nat} (h : spaceByte ∈ bytes) :
    ∃ a r, splitAtSpace bytes = some (a, r) := by
  induction bytes with
  | nil => simp at h
  | cons b tl ih =>
    by_cases hb : b = spaceByte
    · subst hb
      exact ⟨[], tl, by simp [splitAtSpace]⟩
    · have htl : spaceByte ∈ tl := by
        rcases List.mem_cons.mp h with h1 | h1
        · exact absurd (Eq.symm h1) hb
        · exact h1
      obtain ⟨a, r, ha⟩ := ih htl
      exact ⟨b :: a, r, by simp [splitAtSpace, hb, ha]⟩

theorem splitAtSpace_none {bytes : List Nat}
    (h : splitAtSpace bytes = Option.none) : spaceByte ∉ bytes := by
  intro hmem
  obtain ⟨a, r, ha⟩ := splitAtSpace_mem hmem
  rw [ha] at h
  exact absurd h (by simp)

theorem splitAtSpace_of_not_mem {bytes : List Nat}
    (h : spaceByte ∉ bytes) : splitAtSpace bytes = Option.none := by
  induction bytes with
  | nil => rfl
  | cons b tl ih =>
    simp only [List.mem_cons, not_or] at h
    have hb : ¬b = spaceByte := fun hx => h.1 (Eq.symm hx)
    simp [splitAtSpace, hb, ih h.2]

theorem splitAtSpace_append {a : List Nat} (r : List Nat)
    (h : spaceByte ∉ a) :
    splitAtSpace (a ++ spaceByte :: r) = some (a, r) := by
  induction a with
  | nil => simp [splitAtSpace]
  | cons b tl ih =>
    simp only [List.mem_cons, not_or] at h
    have hb : ¬b = spaceByte := fun hx => h.1 (Eq.symm hx)
    simp [splitAtSpace, hb, ih h.2]

theorem validId_no_space {s : String} (h : validId s = true) :
    spaceByte ∉ strBytes s := by
  simp only [validId, Bool.and_eq_true, List.all_eq_true] at h
  intro hmem
  simp only [strBytes, List.mem_map] at hmem
  obtain ⟨c, hc, hcs⟩ := hmem
  have := h.2 c hc
  simp only [validChar, Bool.or_eq_true, Bool.and_eq_true, decide_eq_true_eq,
    Nat.le_iff_lt_or_eq] at this
  simp only [spaceByte] at hcs
  omega

theorem natDigitsGo_congr : ∀ {f1 f2 n : Nat}, n < f1 → n < f2 →
    natDigitsGo f1 n = natDigitsGo f2 n := by
  intro f1
  induction f1 with
  | zero => intro f2 n h1; omega
  | succ f ih =>
    intro f2 n h1 h2
    cases f2 with
    | zero => omega
    | succ g =>
      rw [natDigitsGo, natDigitsGo]
      by_cases h10 : n < 10
      · rw [if_pos h10, if_pos h10]
      · rw [if_neg h10, if_neg h10]
        have hd : n / 10 < n := Nat.div_lt_self (by omega) (by norm_num)
        rw [@ih g (n / 10) (by omega) (by omega)]

theorem natDigits_eq (n : Nat) : natDigits n =
    if n < 10 then [48 + n] else natDigits (n / 10) ++ [48 + n % 10] := by
  show natDigitsGo (n + 1) n = _
  rw [natDigitsGo]
  by_cases h10 : n < 10
  · rw [if_pos h10, if_pos h10]
  · rw [if_neg h10, if_neg h10]
    have hd : n / 10 < n := Nat.div_lt_self (by omega) (by norm_num)
    show natDigitsGo n (n / 10) ++ _ = natDigitsGo (n / 10 + 1) (n / 10) ++ _
    rw [@natDigitsGo_congr n (n / 10 + 1) (n / 10) (by omega) (by omega)]

theorem natDigits_mem {n x : Nat} (h : x ∈ natDigits n) :
    48 ≤ x ∧ x ≤ 57 := by
  induction n using Nat.strong_induction_on with
  | _ n ih =>
    by_cases h10 : n < 10
    · rw [natDigits_eq, if_pos h10] at h
      simp at h
      omega
    · rw [natDigits_eq, if_neg h10] at h
      rcases List.mem_append.mp h with h1 | h1
      · exact ih (n / 10) (Nat.div_lt_self (by omega) (by norm_num)) h1
      · simp at h1
        have := Nat.mod_lt n (show 0 < 10 by norm_num)
        omega

theorem natDigits_no_space (n : Nat) : spaceByte ∉ natDigits n := by
  intro h
  have h2 := natDigits_mem h
  simp only [spaceByte] at h2
  omega

theorem natDigits_ne_nil (n : Nat) : natDigits n ≠ [] := by
  by_cases h10 : n < 10
  · rw [natDigits_eq, if_pos h10]; simp
  · rw [natDigits_eq, if_neg h10]
    intro h
    exact absurd (List.append_eq_nil.mp h).2 (by simp)

theorem digitsVal_append (acc : Nat) (a b : List Nat) :
    digitsVal acc (a ++ b) =
      match digitsVal acc a with
      | some acc1 => digitsVal acc1 b
      | Option.none => Option.none := by
  induction a generalizing acc with
  | nil => simp [digitsVal]
  | cons x tl ih =>
    by_cases hx : 48 ≤ x ∧ x ≤ 57
    · simp [digitsVal, hx, ih]
    · simp [digitsVal, hx]

theorem digitsVal_digit (acc d : Nat) (h : d < 10) :
    digitsVal acc [48 + d] = some (acc * 10 + d) := by
  have hcond : 48 ≤ 48 + d ∧ 48 + d ≤ 57 := by omega
  simp [digitsVal, hcond]

theorem digitsVal_natDigits (acc n : Nat) :
    digitsVal acc (natDigits n) =
      some (acc * 10 ^ (natDigits n).length + n) := by
  induction n using Nat.strong_induction_on generalizing acc with
  | _ n ih =>
    by_cases h10 : n < 10
    · rw [natDigits_eq, if_pos h10, digitsVal_digit acc n h10]
      simp
    · rw [natDigits_eq, if_neg h10, digitsVal_append,
        ih (n / 10) (Nat.div_lt_self (by omega) (by norm_num)) acc]
      have hm : n % 10 < 10 := Nat.mod_lt n (by norm_num)
      show digitsVal _ [48 + n % 10] = _
      rw [digitsVal_digit _ _ hm]
      congr 1
      rw [List.length_append, List.length_singleton]
      have hdm : n / 10 * 10 + n % 10 = n := by omega
      calc (acc * 10 ^ (natDigits (n / 10)).length + n / 10) * 10 + n % 10
          = acc * (10 ^ (natDigits (n / 10)).length * 10)
              + (n / 10 * 10 + n % 10) := by ring
        _ = acc * 10 ^ ((natDigits (n / 10)).length + 1) + n := by
            rw [hdm, pow_succ]

theorem parseIntBytes_natDigits (n : Nat) :
    parseIntBytes (natDigits n) = some (n : Int) := by
  cases hd : natDigits n with
  | nil => exact absurd hd (natDigits_ne_nil n)
  | cons b r =>
    have hb : 48 ≤ b ∧ b ≤ 57 := natDigits_mem (by rw [hd]; simp)
    have h43 : ¬b = 43 := by omega
    have h45 : ¬b = 45 := by omega
    have := digitsVal_natDigits 0 n
    rw [hd] at this
    simp [parseIntBytes, h43, h45, this]

theorem keysOf_cons (k : String) (m : ObjMeta) (c : List (String × ObjMeta)) :
    keysOf ((k, m) :: c) = k :: keysOf c := rfl

theorem keysOf_append (a b : List (String × ObjMeta)) :
    keysOf (a ++ b) = keysOf a ++ keysOf b := List.map_append _ a b

theorem keysOf_shiftChain (d : Int) (c : List (String × ObjMeta)) :
    keysOf (shiftChain d c) = keysOf c := by
  simp [keysOf, shiftChain]

theorem chainEnc_append_intro {c1 c2 : List (String × ObjMeta)} {off : Int}
    {b1 b2 : List Nat} (h1 : chainEnc c1 off b1)
    (h2 : chainEnc c2 (off + b1.length) b2) :
    chainEnc (c1 ++ c2) off (b1 ++ b2) := by
  induction c1 generalizing off b1 with
  | nil =>
    have hb : b1 = [] := h1
    subst hb
    simpa using h2
  | cons e tl ih =>
    obtain ⟨oid, m⟩ := e
    obtain ⟨payload, rest, hoff, hsz, hms, hb, hrec⟩ := h1
    subst hb
    refine ⟨payload, rest ++ b2, hoff, hsz, hms, by simp, ?_⟩
    apply ih hrec
    have harith : off + m.metaSize + m.size + 2 + ((rest.length : Nat) : Int) =
        off + (((encodeRecord oid payload ++ rest).length : Nat) : Int) := by
      simp only [List.length_append]
      push_cast
      rw [encodeRecord_length_int, hms, hsz]
      ring
    have hgoal := h2
    rw [← harith] at hgoal
    exact hgoal

theorem chainEnc_append_elim {c1 c2 : List (String × ObjMeta)} {off : Int}
    {bytes : List Nat} (h : chainEnc (c1 ++ c2) off bytes) :
    ∃ b1 b2, bytes = b1 ++ b2 ∧ chainEnc c1 off b1 ∧
      chainEnc c2 (off + b1.length) b2 := by
  induction c1 generalizing off bytes with
  | nil =>
    refine ⟨[], bytes, by simp, rfl, by simpa using h⟩
  | cons e tl ih =>
    obtain ⟨oid, m⟩ := e
    obtain ⟨payload, rest, hoff, hsz, hms, hb, hrec⟩ := h
    obtain ⟨b1, b2, hbb, hc1, hc2⟩ := ih hrec
    refine ⟨encodeRecord oid payload ++ b1, b2, by simp [hb, hbb],
      ⟨payload, b1, hoff, hsz, hms, rfl, hc1⟩, ?_⟩
    have harith : off + m.metaSize + m.size + 2 + ((b1.length : Nat) : Int) =
        off + (((encodeRecord oid payload ++ b1).length : Nat) : Int) := by
      simp only [List.length_append]
      push_cast
      rw [encodeRecord_length_int, hms, hsz]
      ring
    rw [← harith]
    exact hc2

theorem chainEnc_shift {c : List (String × ObjMeta)} {off : Int}
    {bytes : List Nat} (d : Int) (h : chainEnc c off bytes) :
    chainEnc (shiftChain d c) (off + d) bytes := by
  induction c generalizing off bytes with
  | nil =>
    simpa [shiftChain] using h
  | cons e tl ih =>
    obtain ⟨oid, m⟩ := e
    obtain ⟨payload, rest, hoff, hsz, hms, hb, hrec⟩ := h
    refine ⟨payload, rest, by rw [hoff], hsz, hms, hb, ?_⟩
    have := ih hrec
    have harith : off + m.metaSize + m.size + 2 + d =
        off + d + m.metaSize + m.size + 2 := by ring
    rw [harith] at this
    exact this

theorem chainEnc_layout {c : List (String × ObjMeta)} {off : Int}
    {bytes : List Nat} (h : chainEnc c off bytes) : chainLayout off c := by
  induction c generalizing off bytes with
  | nil => trivial
  | cons e tl ih =>
    obtain ⟨oid, m⟩ := e
    obtain ⟨payload, rest, hoff, hsz, hms, hb, hrec⟩ := h
    exact ⟨hoff, ih hrec⟩

theorem chainLookup_decomp {c : List (String × ObjMeta)} {oid : String}
    {m : ObjMeta} (h : chainLookup c oid = some m) :
    ∃ pre post, c = pre ++ (oid, m) :: post ∧ oid ∉ keysOf pre := by
  induction c with
  | nil => exact absurd h (by simp [chainLookup])
  | cons e tl ih =>
    obtain ⟨k, m1⟩ := e
    by_cases hk : k = oid
    · subst hk
      rw [chainLookup, if_pos rfl] at h
      injection h with h
      subst h
      exact ⟨[], tl, rfl, by simp [keysOf]⟩
    · rw [chainLookup, if_neg hk] at h
      obtain ⟨pre, post, hc, hpre⟩ := ih h
      refine ⟨(k, m1) :: pre, post, by rw [hc]; rfl, ?_⟩
      rw [keysOf_cons]
      simp only [List.mem_cons, not_or]
      exact ⟨fun he => hk (Eq.symm he), hpre⟩

theorem chainLookup_append_right {pre post : List (String × ObjMeta)}
    {oid : String} (m : ObjMeta) (hpre : oid ∉ keysOf pre) :
    chainLookup (pre ++ (oid, m) :: post) oid = some m := by
  induction pre with
  | nil => simp [chainLookup]
  | cons e tl ih =>
    obtain ⟨k, m1⟩ := e
    rw [keysOf_cons] at hpre
    simp only [List.mem_cons, not_or] at hpre
    rw [List.cons_append, chainLookup, if_neg (fun hk => hpre.1 (Eq.symm hk))]
    exact ih hpre.2

theorem chainLookup_eq_none {c : List (String × ObjMeta)} {oid : String}
    (h : oid ∉ keysOf c) : chainLookup c oid = Option.none := by
  induction c with
  | nil => rfl
  | cons e tl ih =>
    obtain ⟨k, m1⟩ := e
    rw [keysOf_cons] at h
    simp only [List.mem_cons, not_or] at h
    rw [chainLookup, if_neg (fun hk => h.1 (Eq.symm hk))]
    exact ih h.2

theorem chainLookup_mem {c : List (String × ObjMeta)} {oid : String}
    {m : ObjMeta} (h : chainLookup c oid = some m) : (oid, m) ∈ c := by
  obtain ⟨pre, post, hc, -⟩ := chainLookup_decomp h
  rw [hc]
  simp

theorem storeUpdateChain_eq {pre post : List (String × ObjMeta)}
    {oid : String} {m : ObjMeta} (nms nsz : Int) (hpre : oid ∉ keysOf pre) :
    storeUpdateChain oid nms nsz (pre ++ (oid, m) :: post) =
      if nsz = m.size then pre ++ (oid, m) :: post
      else pre ++ (oid, ⟨m.offset, nms, nsz⟩) ::
        shiftChain (nms + nsz - m.metaSize - m.size) post := by
  induction pre with
  | nil =>
    rw [List.nil_append, storeUpdateChain, if_pos rfl]
    by_cases h : nsz = m.size <;> simp [h]
  | cons e tl ih =>
    obtain ⟨k, m1⟩ := e
    rw [keysOf_cons] at hpre
    simp only [List.mem_cons, not_or] at hpre
    rw [List.cons_append, storeUpdateChain,
      if_neg (fun hk => hpre.1 (Eq.symm hk)), ih hpre.2]
    by_cases h : nsz = m.size <;> simp [h]

theorem deleteFromChain_eq {pre post : List (String × ObjMeta)}
    {oid : String} {m : ObjMeta} (hpre : oid ∉ keysOf pre) :
    deleteFromChain oid (pre ++ (oid, m) :: post) =
      pre ++ shiftChain (-(m.metaSize + m.size + 2)) post := by
  induction pre with
  | nil => rw [List.nil_append, deleteFromChain, if_pos rfl, List.nil_append]
  | cons e tl ih =>
    obtain ⟨k, m1⟩ := e
    rw [keysOf_cons] at hpre
    simp only [List.mem_cons, not_or] at hpre
    rw [List.cons_append, deleteFromChain,
      if_neg (fun hk => hpre.1 (Eq.symm hk)), ih hpre.2, List.cons_append]

theorem chainLookup_none_not_mem {c : List (String × ObjMeta)} {oid : String}
    (h : chainLookup c oid = Option.none) : oid ∉ keysOf c := by
  induction c with
  | nil => simp [keysOf]
  | cons e tl ih =>
    obtain ⟨k, m1⟩ := e
    by_cases hk : k = oid
    · subst hk
      rw [chainLookup, if_pos rfl] at h
      exact absurd h (by simp)
    · rw [chainLookup, if_neg hk] at h
      rw [keysOf_cons]
      simp only [List.mem_cons, not_or]
      exact ⟨fun he => hk (Eq.symm he), ih h⟩

theorem chainEnc_single (oid : String) (p : List Nat) (off : Int) :
    chainEnc [(oid, ⟨off, metaSizeOf oid p.length, (p.length : Int)⟩)] off
      (encodeRecord oid p) :=
  ⟨p, [], rfl, rfl, rfl, (List.append_nil _).symm, rfl⟩

/-- Locating a looked-up object inside a well-formed bucket: the chain and
the file split around its record. -/
theorem bucketWF_located {bk : Bucket} {oid : String} {m : ObjMeta}
    (hwf : bucketWF bk) (h : chainLookup bk.chain oid = some m) :
    ∃ pre post b1 payload b3,
      bk.chain = pre ++ (oid, m) :: post ∧
      oid ∉ keysOf pre ∧
      bk.file = some (b1 ++ encodeRecord oid payload ++ b3) ∧
      ((b1.length : Nat) : Int) = m.offset ∧
      m.size = (payload.length : Int) ∧
      m.metaSize = metaSizeOf oid payload.length ∧
      chainEnc pre 0 b1 ∧
      chainEnc post (m.offset + m.metaSize + m.size + 2) b3 := by
  obtain ⟨⟨bytes, hfb, henc⟩, hnd, hval⟩ := hwf
  obtain ⟨pre, post, hc, hpre⟩ := chainLookup_decomp h
  rw [hc] at henc
  obtain ⟨b1, b2, hb, h1, h2⟩ := chainEnc_append_elim henc
  obtain ⟨payload, rest, hoff, hsz, hms, hb2, hrec⟩ := h2
  refine ⟨pre, post, b1, payload, rest, hc, hpre, ?_, ?_, hsz, hms, h1, ?_⟩
  · rw [hfb, hb, hb2, List.append_assoc]
  · omega
  · have harith : (0 : Int) + (b1.length : Int) + m.metaSize + m.size + 2 =
        m.offset + m.metaSize + m.size + 2 := by
      rw [hoff]
    rw [harith] at hrec
    exact hrec

/-- The file rewrite done by a replacing `Store` on a well-placed record:
whether or not the size changes, the record is re-encoded in place (its byte
offset is preserved) and the suffix is copied verbatim. -/
theorem replaceObject_some_spec {oid : String} {m : ObjMeta}
    {b1 payload b3 : List Nat}
    (hoff : ((b1.length : Nat) : Int) = m.offset)
    (hsz : m.size = (payload.length : Int))
    (hms : m.metaSize = metaSizeOf oid payload.length) (p : List Nat) :
    (replaceObject (some p) oid m (b1 ++ encodeRecord oid payload ++ b3)).1 =
      b1 ++ encodeRecord oid p ++ b3 ∧
    (replaceObject (some p) oid m
      (b1 ++ encodeRecord oid payload ++ b3)).2.2 = (p.length : Int) := by
  have hL : ((encodeRecord oid payload).length : Int) =
      m.metaSize + m.size + 2 := by
    rw [encodeRecord_length_int, ← hms, ← hsz]
  have htake : (b1 ++ encodeRecord oid payload ++ b3).take m.offset.toNat
      = b1 := by
    rw [List.append_assoc]
    exact List.take_left' (by omega)
  have hdrop : (b1 ++ encodeRecord oid payload ++ b3).drop
      (m.offset + m.metaSize + m.size + 2).toNat = b3 :=
    List.drop_left' (by simp; omega)
  by_cases hcase : (p.length : Int) = m.size
  · -- payload length unchanged: the old header is copied, new payload written
    have hplen : p.length = payload.length := by omega
    have hdrop0 : (b1 ++ encodeRecord oid payload ++ b3).drop m.offset.toNat
        = encodeRecord oid payload ++ b3 := by
      rw [List.append_assoc]
      exact List.drop_left' (by omega)
    have hhdr : (encodeRecord oid payload ++ b3).take
        (m.metaSize + 1).toNat = metaStr oid payload.length := by
      rw [encodeRecord_eq_metaStr, List.append_assoc, List.append_assoc]
      refine List.take_left' ?_
      have := metaStr_length oid payload.length
      omega
    constructor
    · simp only [replaceObject, if_neg (by omega : ¬(p.length : Int) ≠ m.size)]
      rw [htake, hdrop, hdrop0, hhdr]
      rw [encodeRecord_eq_metaStr oid p, hplen]
      simp [List.append_assoc]
    · simp only [replaceObject, if_neg (by omega : ¬(p.length : Int) ≠ m.size)]
  · constructor
    · simp only [replaceObject, if_pos (by omega : (p.length : Int) ≠ m.size)]
      rw [htake, hdrop]
    · simp only [replaceObject, if_pos (by omega : (p.length : Int) ≠ m.size)]

/-- The file rewrite done by a multi-object `Delete` on a well-placed record:
the record's bytes are cut out, prefix and suffix copied verbatim. -/
theorem replaceObject_none_spec {oid : String} {m : ObjMeta}
    {b1 payload b3 : List Nat}
    (hoff : ((b1.length : Nat) : Int) = m.offset)
    (hsz : m.size = (payload.length : Int))
    (hms : m.metaSize = metaSizeOf oid payload.length) :
    (replaceObject Option.none oid m
      (b1 ++ encodeRecord oid payload ++ b3)).1 = b1 ++ b3 := by
  have hL : ((encodeRecord oid payload).length : Int) =
      m.metaSize + m.size + 2 := by
    rw [encodeRecord_length_int, ← hms, ← hsz]
  have htake : (b1 ++ encodeRecord oid payload ++ b3).take m.offset.toNat
      = b1 := by
    rw [List.append_assoc]
    exact List.take_left' (by omega)
  have hdrop : (b1 ++ encodeRecord oid payload ++ b3).drop
      (m.offset + m.metaSize + m.size + 2).toNat = b3 :=
    List.drop_left' (by simp; omega)
  simp only [replaceObject]
  rw [htake, hdrop]

theorem update_update (fs : FS) (k : String) (v1 v2 : Option Bucket) :
    update (update fs k v1) k v2 = update fs k v2 := by
  funext q
  by_cases hq : q = k <;> simp [update, hq]

theorem update_same (fs : FS) (k : String) (v : Option Bucket) :
    update fs k v k = v := by simp [update]

theorem update_other (fs : FS) {k q : String} (v : Option Bucket)
    (h : q ≠ k) : update fs k v q = fs q := by simp [update, h]

/-- `Store` on an unregistered bucket: the bucket is created and the single
record appended to its fresh file. -/
theorem Store_new_bucket {fs : FS} {bid : String}
    (hb : fs bid = Option.none) (p : List Nat) (oid : String) :
    Store p oid bid fs = (.ok false, update fs bid (some
      ⟨some (encodeRecord oid p),
        [(oid, ⟨0, metaSizeOf oid p.length, (p.length : Int)⟩)]⟩)) := by
  simp [Store, StoreF, hb, appendObject, update_update]

/-- `Store` of a new object into an existing bucket: the old file is copied
and the record appended at end of file. -/
theorem Store_append {fs : FS} {bid : String} {bk : Bucket}
    {bytes : List Nat} (hb : fs bid = some bk) {oid : String}
    (hl : chainLookup bk.chain oid = Option.none)
    (hf : bk.file = some bytes) (p : List Nat) :
    Store p oid bid fs = (.ok false, update fs bid (some
      ⟨some (bytes ++ encodeRecord oid p),
        bk.chain ++ [(oid, ⟨(bytes.length : Int),
          metaSizeOf oid p.length, (p.length : Int)⟩)]⟩)) := by
  simp [Store, StoreF, hb, hl, hf, appendObject]

/-- `Store` of an existing object: the record is rewritten in place (same
byte offset); if the payload size changed, the trailing entries shift by the
encoded-size delta, otherwise the metadata is untouched. -/
theorem Store_replace {fs : FS} {bid : String} {bk : Bucket} {oid : String}
    {m : ObjMeta} {pre post : List (String × ObjMeta)}
    {b1 payload b3 : List Nat} (p : List Nat)
    (hb : fs bid = some bk)
    (hchain : bk.chain = pre ++ (oid, m) :: post)
    (hpre : oid ∉ keysOf pre)
    (hfile : bk.file = some (b1 ++ encodeRecord oid payload ++ b3))
    (hoff : ((b1.length : Nat) : Int) = m.offset)
    (hsz : m.size = (payload.length : Int))
    (hms : m.metaSize = metaSizeOf oid payload.length) :
    Store p oid bid fs = (.ok true, update fs bid (some
      ⟨some (b1 ++ encodeRecord oid p ++ b3),
        if (p.length : Int) = m.size then bk.chain
        else pre ++ (oid, ⟨m.offset, metaSizeOf oid p.length,
            (p.length : Int)⟩) ::
          shiftChain (metaSizeOf oid p.length + p.length
            - m.metaSize - m.size) post⟩)) := by
  have hl : chainLookup bk.chain oid = some m := by
    rw [hchain]
    exact chainLookup_append_right m hpre
  obtain ⟨hfile', hsz'⟩ := replaceObject_some_spec hoff hsz hms p
  by_cases hcase : (p.length : Int) = m.size
  · -- size unchanged: `newObjSize == objMeta.size`, metadata untouched
    have hupd : storeUpdateChain oid
        (replaceObject (some p) oid m
          (b1 ++ encodeRecord oid payload ++ b3)).2.1
        (replaceObject (some p) oid m
          (b1 ++ encodeRecord oid payload ++ b3)).2.2 bk.chain =
        bk.chain := by
      rw [hsz', hchain, storeUpdateChain_eq _ _ hpre, if_pos hcase]
    simp only [Store, StoreF, hb, hl, hfile]
    simp only [show (IoFail.none = IoFail.tempFile) = False by simp,
      show (IoFail.none = IoFail.replaceErr) = False by simp,
      show (IoFail.none = IoFail.rename) = False by simp,
      if_false, eq_self_iff_true]
    rw [hupd, hfile', if_pos hcase]
  · have hupd : storeUpdateChain oid
        (replaceObject (some p) oid m
          (b1 ++ encodeRecord oid payload ++ b3)).2.1
        (replaceObject (some p) oid m
          (b1 ++ encodeRecord oid payload ++ b3)).2.2 bk.chain =
        pre ++ (oid, ⟨m.offset, metaSizeOf oid p.length,
            (p.length : Int)⟩) ::
          shiftChain (metaSizeOf oid p.length + p.length
            - m.metaSize - m.size) post := by
      have hnms : (replaceObject (some p) oid m
          (b1 ++ encodeRecord oid payload ++ b3)).2.1 =
          metaSizeOf oid p.length := by
        simp only [replaceObject,
          if_pos (show (p.length : Int) ≠ m.size from hcase)]
      rw [hsz', hnms, hchain, storeUpdateChain_eq _ _ hpre, if_neg hcase]
    simp only [Store, StoreF, hb, hl, hfile]
    simp only [show (IoFail.none = IoFail.tempFile) = False by simp,
      show (IoFail.none = IoFail.replaceErr) = False by simp,
      show (IoFail.none = IoFail.rename) = False by simp,
      if_false, eq_self_iff_true]
    rw [hupd, hfile', if_neg hcase]

/-- `Delete` on an unregistered bucket: not deleted, no error, no change. -/
theorem Delete_no_bucket {fs : FS} {bid : String}
    (hb : fs bid = Option.none) (oid : String) :
    Delete oid bid fs = (.ok false, fs) := by
  simp [Delete, DeleteF, hb]

/-- `Delete` of an absent object: not deleted, no error, no change. -/
theorem Delete_no_obj {fs : FS} {bid : String} {bk : Bucket}
    (hb : fs bid = some bk) {oid : String}
    (hl : chainLookup bk.chain oid = Option.none) :
    Delete oid bid fs = (.ok false, fs) := by
  simp [Delete, DeleteF, hb, hl]

/-- `Delete` of the sole object of a bucket: the bucket file and registry
entry are removed outright. -/
theorem Delete_sole {fs : FS} {bid : String} {bk : Bucket} {oid : String}
    {m : ObjMeta} (hb : fs bid = some bk)
    (hl : chainLookup bk.chain oid = some m) (hlen : bk.chain.length = 1) :
    Delete oid bid fs = (.ok true, update fs bid Option.none) := by
  simp [Delete, DeleteF, hb, hl, hlen]

/-- `Delete` of one of several objects: the record is cut out of the file,
the entry unlinked, and the trailing entries shifted down. -/
theorem Delete_multi {fs : FS} {bid : String} {bk : Bucket} {oid : String}
    {m : ObjMeta} {pre post : List (String × ObjMeta)}
    {b1 payload b3 : List Nat}
    (hb : fs bid = some bk)
    (hchain : bk.chain = pre ++ (oid, m) :: post)
    (hpre : oid ∉ keysOf pre)
    (hfile : bk.file = some (b1 ++ encodeRecord oid payload ++ b3))
    (hoff : ((b1.length : Nat) : Int) = m.offset)
    (hsz : m.size = (payload.length : Int))
    (hms : m.metaSize = metaSizeOf oid payload.length)
    (hlen : bk.chain.length ≠ 1) :
    Delete oid bid fs = (.ok true, update fs bid (some
      ⟨some (b1 ++ b3),
        pre ++ shiftChain (-(m.metaSize + m.size + 2)) post⟩)) := by
  have hl : chainLookup bk.chain oid = some m := by
    rw [hchain]
    exact chainLookup_append_right m hpre
  have hfile' : (replaceObject Option.none oid m
      (b1 ++ (encodeRecord oid payload ++ b3))).1 = b1 ++ b3 := by
    rw [← List.append_assoc]
    exact replaceObject_none_spec hoff hsz hms
  have hdel : deleteFromChain oid bk.chain =
      pre ++ shiftChain (-(m.metaSize + m.size + 2)) post := by
    rw [hchain]
    exact deleteFromChain_eq hpre
  simp [Delete, DeleteF, hb, hl, hlen, hfile, hfile', hdel]

theorem mem_shiftChain {q : String × ObjMeta} {d : Int}
    {c : List (String × ObjMeta)} (h : q ∈ shiftChain d c) :
    ∃ m0, (q.1, m0) ∈ c := by
  simp only [shiftChain, List.mem_map] at h
  obtain ⟨p, hp, he⟩ := h
  exact ⟨p.2, by rw [← he]; exact hp⟩

theorem bucketWF_empty : bucketWF emptyBucket :=
  ⟨⟨[], rfl, rfl⟩, List.nodup_nil,
    by intro p hp; exact absurd hp (List.not_mem_nil p)⟩

theorem fsWF_empty : fsWF fsEmpty := fun bid bk h => absurd h (by
  simp [fsEmpty])

theorem fsWF_update {fs : FS} (hwf : fsWF fs) {bid : String}
    {v : Option Bucket} (hv : ∀ bk, v = some bk → bucketWF bk) :
    fsWF (update fs bid v) := by
  intro q bk h
  by_cases hq : q = bid
  · subst hq
    rw [update_same] at h
    exact hv bk h
  · rw [update_other fs v hq] at h
    exact hwf q bk h

theorem bucketWF_new {oid : String} (hval : validId oid = true)
    (p : List Nat) :
    bucketWF ⟨some (encodeRecord oid p),
      [(oid, ⟨0, metaSizeOf oid p.length, (p.length : Int)⟩)]⟩ := by
  refine ⟨⟨encodeRecord oid p, rfl, chainEnc_single oid p 0⟩,
    by simp [keysOf], ?_⟩
  intro q hq
  simp at hq
  rw [hq]
  exact hval

theorem bucketWF_append_new {bk : Bucket} {oid : String} {bytes : List Nat}
    (hwf : bucketWF bk) (hl : chainLookup bk.chain oid = Option.none)
    (hf : bk.file = some bytes)
    (hval : validId oid = true) (p : List Nat) :
    bucketWF ⟨some (bytes ++ encodeRecord oid p),
      bk.chain ++ [(oid, ⟨(bytes.length : Int),
        metaSizeOf oid p.length, (p.length : Int)⟩)]⟩ := by
  obtain ⟨⟨bytes0, hfb, henc⟩, hnd, hv⟩ := hwf
  rw [hf, Option.some.injEq] at hfb
  subst hfb
  have hnotmem := chainLookup_none_not_mem hl
  refine ⟨⟨bytes ++ encodeRecord oid p, rfl, ?_⟩, ?_, ?_⟩
  · apply chainEnc_append_intro henc
    have := chainEnc_single oid p ((bytes.length : Nat) : Int)
    have hz : (0 : Int) + (bytes.length : Int) = (bytes.length : Int) := by
      ring
    rw [hz]
    exact this
  · rw [keysOf_append]
    rw [List.nodup_append]
    refine ⟨hnd, by simp [keysOf], ?_⟩
    intro a ha hb
    simp [keysOf] at hb
    rw [hb] at ha
    exact hnotmem ha
  · intro q hq
    rcases List.mem_append.mp hq with h1 | h1
    · exact hv q h1
    · simp at h1
      rw [h1]
      exact hval

theorem shiftChain_zero (c : List (String × ObjMeta)) :
    shiftChain 0 c = c := by
  induction c with
  | nil => rfl
  | cons e tl ih =>
    obtain ⟨k, m⟩ := e
    obtain ⟨o, ms, sz⟩ := m
    show (k, ObjMeta.mk (o + 0) ms sz) :: shiftChain 0 tl =
      (k, ObjMeta.mk o ms sz) :: tl
    rw [add_zero, ih]

theorem chainEnc_replace {pre post : List (String × ObjMeta)} {oid : String}
    {m : ObjMeta} {b1 b3 : List Nat}
    (h1 : chainEnc pre 0 b1)
    (hrec : chainEnc post (m.offset + m.metaSize + m.size + 2) b3)
    (hoff : ((b1.length : Nat) : Int) = m.offset)
    (p : List Nat) :
    chainEnc (pre ++ (oid, ⟨m.offset, metaSizeOf oid p.length,
        (p.length : Int)⟩) ::
      shiftChain (metaSizeOf oid p.length + p.length
        - m.metaSize - m.size) post) 0
      (b1 ++ encodeRecord oid p ++ b3) := by
  rw [List.append_assoc]
  apply chainEnc_append_intro h1
  refine ⟨p, b3, by show m.offset = 0 + ((b1.length : Nat) : Int); omega,
    rfl, rfl, rfl, ?_⟩
  have hs := chainEnc_shift
    (metaSizeOf oid p.length + p.length - m.metaSize - m.size) hrec
  have harith : m.offset + m.metaSize + m.size + 2 +
      (metaSizeOf oid p.length + (p.length : Int)
        - m.metaSize - m.size) =
      0 + (b1.length : Int) + metaSizeOf oid p.length + (p.length : Int)
        + 2 := by
    omega
  rw [harith] at hs
  exact hs

theorem chainEnc_replace_same {pre post : List (String × ObjMeta)}
    {oid : String} {m : ObjMeta} {b1 payload b3 : List Nat}
    (h1 : chainEnc pre 0 b1)
    (hrec : chainEnc post (m.offset + m.metaSize + m.size + 2) b3)
    (hoff : ((b1.length : Nat) : Int) = m.offset)
    (hsz : m.size = (payload.length : Int))
    (hms : m.metaSize = metaSizeOf oid payload.length)
    {p : List Nat} (hcase : (p.length : Int) = m.size) :
    chainEnc (pre ++ (oid, m) :: post) 0
      (b1 ++ encodeRecord oid p ++ b3) := by
  have hplen : p.length = payload.length := by omega
  rw [List.append_assoc]
  apply chainEnc_append_intro h1
  refine ⟨p, b3, by omega, by omega, by rw [hms, hplen], rfl, ?_⟩
  have harith : m.offset + m.metaSize + m.size + 2 =
      0 + (b1.length : Int) + m.metaSize + m.size + 2 := by omega
  rw [harith] at hrec
  exact hrec

theorem chainEnc_delete {pre post : List (String × ObjMeta)}
    {m : ObjMeta} {b1 b3 : List Nat}
    (h1 : chainEnc pre 0 b1)
    (hrec : chainEnc post (m.offset + m.metaSize + m.size + 2) b3)
    (hoff : ((b1.length : Nat) : Int) = m.offset) :
    chainEnc (pre ++ shiftChain (-(m.metaSize + m.size + 2)) post) 0
      (b1 ++ b3) := by
  apply chainEnc_append_intro h1
  have hs := chainEnc_shift (-(m.metaSize + m.size + 2)) hrec
  have harith : m.offset + m.metaSize + m.size + 2 +
      -(m.metaSize + m.size + 2) = 0 + (b1.length : Int) := by omega
  rw [harith] at hs
  exact hs

theorem keysOf_replace {pre post : List (String × ObjMeta)} {oid : String}
    (m1 m2 : ObjMeta) (d : Int) :
    keysOf (pre ++ (oid, m2) :: shiftChain d post) =
      keysOf (pre ++ (oid, m1) :: post) := by
  rw [keysOf_append, keysOf_append, keysOf_cons, keysOf_cons,
    keysOf_shiftChain]

theorem bucketWF_replaced {oid : String} {m : ObjMeta}
    {pre post : List (String × ObjMeta)} {b1 payload b3 : List Nat}
    (h1 : chainEnc pre 0 b1)
    (hrec : chainEnc post (m.offset + m.metaSize + m.size + 2) b3)
    (hoff : ((b1.length : Nat) : Int) = m.offset)
    (hsz : m.size = (payload.length : Int))
    (hms : m.metaSize = metaSizeOf oid payload.length)
    (hnd : (keysOf (pre ++ (oid, m) :: post)).Nodup)
    (hv : ∀ q ∈ pre ++ (oid, m) :: post, validId q.1 = true)
    (p : List Nat) :
    bucketWF ⟨some (b1 ++ encodeRecord oid p ++ b3),
      if (p.length : Int) = m.size then pre ++ (oid, m) :: post
      else pre ++ (oid, ⟨m.offset, metaSizeOf oid p.length,
          (p.length : Int)⟩) ::
        shiftChain (metaSizeOf oid p.length + p.length
          - m.metaSize - m.size) post⟩ := by
  by_cases hcase : (p.length : Int) = m.size
  · rw [if_pos hcase]
    exact ⟨⟨b1 ++ encodeRecord oid p ++ b3, rfl,
      chainEnc_replace_same h1 hrec hoff hsz hms hcase⟩, hnd, hv⟩
  · rw [if_neg hcase]
    refine ⟨⟨b1 ++ encodeRecord oid p ++ b3, rfl,
      chainEnc_replace h1 hrec hoff p⟩, ?_, ?_⟩
    · rw [keysOf_replace m _ _]
      exact hnd
    · intro q hq
      rcases List.mem_append.mp hq with hq1 | hq1
      · exact hv q (List.mem_append.mpr (Or.inl hq1))
      · rcases List.mem_cons.mp hq1 with hq2 | hq2
        · rw [hq2]
          exact hv (oid, m) (List.mem_append.mpr (Or.inr (by simp)))
        · obtain ⟨m0, hm0⟩ := mem_shiftChain hq2
          exact hv (q.1, m0) (List.mem_append.mpr (Or.inr
            (List.mem_cons.mpr (Or.inr hm0))))

theorem bucketWF_deleted {oid : String} {m : ObjMeta}
    {pre post : List (String × ObjMeta)} {b1 b3 : List Nat}
    (h1 : chainEnc pre 0 b1)
    (hrec : chainEnc post (m.offset + m.metaSize + m.size + 2) b3)
    (hoff : ((b1.length : Nat) : Int) = m.offset)
    (hnd : (keysOf (pre ++ (oid, m) :: post)).Nodup)
    (hv : ∀ q ∈ pre ++ (oid, m) :: post, validId q.1 = true) :
    bucketWF ⟨some (b1 ++ b3),
      pre ++ shiftChain (-(m.metaSize + m.size + 2)) post⟩ := by
  refine ⟨⟨b1 ++ b3, rfl, chainEnc_delete h1 hrec hoff⟩, ?_, ?_⟩
  · rw [keysOf_append, keysOf_shiftChain]
    rw [keysOf_append, keysOf_cons] at hnd
    have hsub : (keysOf pre ++ keysOf post).Sublist
        (keysOf pre ++ oid :: keysOf post) :=
      List.Sublist.append_left (List.sublist_cons_self _ _) _
    exact hnd.sublist hsub
  · intro q hq
    rcases List.mem_append.mp hq with hq1 | hq1
    · exact hv q (List.mem_append.mpr (Or.inl hq1))
    · obtain ⟨m0, hm0⟩ := mem_shiftChain hq1
      exact hv (q.1, m0) (List.mem_append.mpr (Or.inr
        (List.mem_cons.mpr (Or.inr hm0))))

/-- A successful `Store` with a valid object id preserves well-formedness of
the whole state. -/
theorem fsWF_Store {fs : FS} (hwf : fsWF fs) {oid : String}
    (hval : validId oid = true) (p : List Nat) (bid : String) :
    fsWF (Store p oid bid fs).2 := by
  cases hb : fs bid with
  | none =>
    rw [Store_new_bucket hb]
    apply fsWF_update hwf
    intro bk2 h
    injection h with h
    rw [← h]
    exact bucketWF_new hval p
  | some bk =>
    cases hl : chainLookup bk.chain oid with
    | none =>
      obtain ⟨⟨bytes, hfb, henc⟩, hnd, hv⟩ := hwf bid bk hb
      rw [Store_append hb hl hfb]
      apply fsWF_update hwf
      intro bk2 h
      injection h with h
      rw [← h]
      exact bucketWF_append_new (hwf bid bk hb) hl hfb hval p
    | some m =>
      obtain ⟨pre, post, b1, payload, b3, hchain, hpre, hfile, hoff, hsz,
        hms, h1, hrec⟩ := bucketWF_located (hwf bid bk hb) hl
      rw [Store_replace p hb hchain hpre hfile hoff hsz hms]
      apply fsWF_update hwf
      intro bk2 h
      injection h with h
      rw [← h, hchain]
      obtain ⟨henc, hnd, hv⟩ := hwf bid bk hb
      rw [hchain] at hnd hv
      exact bucketWF_replaced h1 hrec hoff hsz hms hnd hv p

/-- A successful `Delete` preserves well-formedness of the whole state. -/
theorem fsWF_Delete {fs : FS} (hwf : fsWF fs) (oid bid : String) :
    fsWF (Delete oid bid fs).2 := by
  cases hb : fs bid with
  | none => rw [Delete_no_bucket hb]; exact hwf
  | some bk =>
    cases hl : chainLookup bk.chain oid with
    | none => rw [Delete_no_obj hb hl]; exact hwf
    | some m =>
      by_cases hlen : bk.chain.length = 1
      · rw [Delete_sole hb hl hlen]
        exact fsWF_update hwf (fun bk2 h => absurd h (by simp))
      · obtain ⟨pre, post, b1, payload, b3, hchain, hpre, hfile, hoff, hsz,
          hms, h1, hrec⟩ := bucketWF_located (hwf bid bk hb) hl
        rw [Delete_multi hb hchain hpre hfile hoff hsz hms hlen]
        apply fsWF_update hwf
        intro bk2 h
        injection h with h
        rw [← h]
        obtain ⟨henc, hnd, hv⟩ := hwf bid bk hb
        rw [hchain] at hnd hv
        exact bucketWF_deleted h1 hrec hoff hnd hv

theorem fsWF_applyOp {fs : FS} (hwf : fsWF fs) {op : Op}
    (hop : opValid op) : fsWF (applyOp op fs) := by
  cases op with
  | store p oid bid => exact fsWF_Store hwf hop p bid
  | del oid bid => exact fsWF_Delete hwf oid bid

theorem fsWF_runOps {ops : List Op} {fs : FS} (hwf : fsWF fs)
    (hops : ∀ op ∈ ops, opValid op) : fsWF (runOps ops fs) := by
  induction ops generalizing fs with
  | nil => exact hwf
  | cons op tl ih =>
    have h1 : opValid op := hops op (by simp)
    have h2 : ∀ q ∈ tl, opValid q := fun q hq => hops q (by simp [hq])
    exact ih (fsWF_applyOp hwf h1) h2

theorem metaSizeOf_pos (oid : String) (n : Nat) : 0 < metaSizeOf oid n := by
  simp [metaSizeOf]
  omega

/-- `Retrieve` on a record located in the bucket file reads back exactly its
payload, with no error. -/
theorem Retrieve_at {fs : FS} {bid : String} {bk : Bucket} {oid : String}
    {m : ObjMeta} {b1 payload b3 : List Nat}
    (hb : fs bid = some bk)
    (hl : chainLookup bk.chain oid = some m)
    (hfile : bk.file = some (b1 ++ encodeRecord oid payload ++ b3))
    (hoff : ((b1.length : Nat) : Int) = m.offset)
    (hsz : m.size = (payload.length : Int))
    (hms : m.metaSize = metaSizeOf oid payload.length) :
    Retrieve oid bid fs = ⟨some payload, true, false⟩ := by
  have hml := metaStr_length oid payload.length
  have hL := encodeRecord_length_int oid payload
  have hmp := metaSizeOf_pos oid payload.length
  have hfile2 : b1 ++ encodeRecord oid payload ++ b3 =
      (b1 ++ metaStr oid payload.length) ++
      (payload ++ [sepByte] ++ b3) := by
    rw [encodeRecord_eq_metaStr]
    simp [List.append_assoc]
  have hstart : (m.offset + m.metaSize + 1).toNat =
      (b1 ++ metaStr oid payload.length).length := by
    rw [List.length_append]
    omega
  have hdrop : (b1 ++ encodeRecord oid payload ++ b3).drop
      (m.offset + m.metaSize + 1).toNat = payload ++ [sepByte] ++ b3 := by
    rw [hfile2]
    exact List.drop_left' hstart.symm
  have htake : (payload ++ [sepByte] ++ b3).take m.size.toNat = payload := by
    have hsz2 : m.size.toNat = payload.length := by omega
    rw [hsz2, List.append_assoc]
    exact List.take_left' rfl
  have hflen : (((b1 ++ encodeRecord oid payload ++ b3).length : Nat) : Int)
      = (b1.length : Int) + (m.metaSize + m.size + 2) + b3.length := by
    simp only [List.length_append]
    push_cast
    rw [hL, ← hms, ← hsz]
  have hbound : ¬(m.offset + m.metaSize + 1 < 0 ∨
      ((b1 ++ encodeRecord oid payload ++ b3).length : Int) <
        m.offset + m.metaSize + 1 + m.size) := by
    omega
  simp only [Retrieve, RetrieveF, hb, hl, hfile]
  rw [if_neg (by simp : ¬(IoFail.none = IoFail.readObj))]
  rw [if_neg hbound]
  rw [hdrop]
  rw [htake]

/-- Claim C1 — for every payload `p` (empty, spaces and newlines included)
and valid identifiers, a committed `Store p oid bid` followed by
`Retrieve oid bid` returns `(p, found = true, no error)`. -/
theorem store_retrieve_roundtrip (p : List Nat) {oid bid : String} (fs : FS)
    (hwf : fsWF fs) (ho : validId oid = true) (hbid : validId bid = true) :
    Retrieve oid bid (Store p oid bid fs).2 = ⟨some p, true, false⟩ := by
  cases hb : fs bid with
  | none =>
    rw [Store_new_bucket hb]
    have hm : (ObjMeta.mk 0 (metaSizeOf oid p.length) (p.length : Int)) =
        ⟨0, metaSizeOf oid p.length, (p.length : Int)⟩ := rfl
    have hl2 : chainLookup
        [(oid, (⟨0, metaSizeOf oid p.length, (p.length : Int)⟩ : ObjMeta))]
        oid = some ⟨0, metaSizeOf oid p.length, (p.length : Int)⟩ := by
      rw [chainLookup, if_pos rfl]
    have hfile2 : (Bucket.mk (some (encodeRecord oid p))
        [(oid, ⟨0, metaSizeOf oid p.length, (p.length : Int)⟩)]).file =
        some ([] ++ encodeRecord oid p ++ []) := by simp
    exact Retrieve_at (update_same fs bid _) hl2 hfile2 rfl rfl rfl
  | some bk =>
    cases hl : chainLookup bk.chain oid with
    | none =>
      obtain ⟨⟨bytes, hfb, henc⟩, hnd, hv⟩ := hwf bid bk hb
      rw [Store_append hb hl hfb]
      have hnotmem := chainLookup_none_not_mem hl
      have hl2 : chainLookup (bk.chain ++ [(oid,
          (⟨(bytes.length : Int), metaSizeOf oid p.length,
            (p.length : Int)⟩ : ObjMeta))]) oid =
          some ⟨(bytes.length : Int), metaSizeOf oid p.length,
            (p.length : Int)⟩ :=
        chainLookup_append_right _ hnotmem
      have hfile2 : (Bucket.mk (some (bytes ++ encodeRecord oid p))
          (bk.chain ++ [(oid, ⟨(bytes.length : Int),
            metaSizeOf oid p.length, (p.length : Int)⟩)])).file =
          some (bytes ++ encodeRecord oid p ++ []) := by simp
      exact Retrieve_at (update_same fs bid _) hl2 hfile2 rfl rfl rfl
    | some m =>
      obtain ⟨pre, post, b1, payload, b3, hchain, hpre, hfile, hoff, hsz,
        hms, h1, hrec⟩ := bucketWF_located (hwf bid bk hb) hl
      rw [Store_replace p hb hchain hpre hfile hoff hsz hms]
      by_cases hcase : (p.length : Int) = m.size
      · rw [if_pos hcase]
        have hplen : p.length = payload.length := by omega
        have hsz2 : m.size = ((p.length : Nat) : Int) := by omega
        have hms2 : m.metaSize = metaSizeOf oid p.length := by
          rw [hms, hplen]
        have hfile2 : (Bucket.mk (some (b1 ++ encodeRecord oid p ++ b3))
            bk.chain).file = some (b1 ++ encodeRecord oid p ++ b3) := rfl
        exact Retrieve_at (update_same fs bid _) hl hfile2 hoff hsz2 hms2
      · rw [if_neg hcase]
        have hl2 : chainLookup (pre ++ (oid,
            (⟨m.offset, metaSizeOf oid p.length,
              (p.length : Int)⟩ : ObjMeta)) ::
            shiftChain (metaSizeOf oid p.length + p.length
              - m.metaSize - m.size) post) oid =
            some ⟨m.offset, metaSizeOf oid p.length, (p.length : Int)⟩ :=
          chainLookup_append_right _ hpre
        have hoff2 : ((b1.length : Nat) : Int) =
            (ObjMeta.mk m.offset (metaSizeOf oid p.length)
              (p.length : Int)).offset := hoff
        exact Retrieve_at (update_same fs bid _) hl2 rfl hoff2 rfl rfl

theorem bytesToStr_strBytes (s : String) : bytesToStr (strBytes s) = s := by
  cases s with
  | mk data =>
    simp only [bytesToStr, strBytes, List.map_map]
    have hid : (Char.ofNat ∘ Char.toNat) = id := funext Char.ofNat_toNat
    rw [hid, List.map_id]

theorem encodeRecord_split (oid : String) (payload rest2 : List Nat) :
    encodeRecord oid payload ++ rest2 = strBytes oid ++ spaceByte ::
      (natDigits payload.length ++ spaceByte ::
        (payload ++ sepByte :: rest2)) := by
  simp [encodeRecord, List.append_assoc]

/-- The loader inverts the encoder: a file made of well-formed records
carrying valid identifiers, followed by any space-free fragment, parses into
exactly the chain that produced it (the fragment is silently dropped). -/
theorem parseGo_encode {c : List (String × ObjMeta)} {fuel : Nat} {off : Int}
    {pre frag : List Nat}
    (henc : chainEnc c off pre) (hval : ∀ q ∈ c, validId q.1 = true)
    (hfrag : spaceByte ∉ frag) (hfuel : pre.length + frag.length < fuel) :
    parseGo fuel (pre ++ frag) off = .ok c := by
  induction c generalizing fuel off pre with
  | nil =>
    have hpre : pre = [] := henc
    subst hpre
    cases fuel with
    | zero => omega
    | succ f =>
      rw [List.nil_append, parseGo, splitAtSpace_of_not_mem hfrag]
  | cons e tl ih =>
    obtain ⟨oid, m⟩ := e
    obtain ⟨payload, rest, hoff, hsz, hms, hb, hrec⟩ := henc
    subst hb
    have hvoid : validId oid = true := hval (oid, m) (by simp)
    have hid := validId_no_space hvoid
    have hnd := natDigits_no_space payload.length
    cases fuel with
    | zero => omega
    | succ f =>
      rw [parseGo]
      have hshape : encodeRecord oid payload ++ rest ++ frag =
          strBytes oid ++ spaceByte :: (natDigits payload.length ++
            spaceByte :: (payload ++ sepByte :: (rest ++ frag))) := by
        rw [List.append_assoc, encodeRecord_split]
      have hc1 : ¬((payload.length : Int) + 1 < 0) := by omega
      have hc2 : ¬((payload ++ sepByte :: (rest ++ frag)).length <
          ((payload.length : Int) + 1).toNat) := by
        simp only [List.length_append, List.length_cons]
        omega
      have hdrop : (payload ++ sepByte :: (rest ++ frag)).drop
          (((payload.length : Int) + 1).toNat) = rest ++ frag := by
        have hre : payload ++ sepByte :: (rest ++ frag) =
            (payload ++ [sepByte]) ++ (rest ++ frag) := by simp
        rw [hre]
        refine List.drop_left' ?_
        simp only [List.length_append, List.length_cons, List.length_nil]
        omega
      have hfuel2 : rest.length + frag.length < f := by
        have hel := encodeRecord_length_int oid payload
        have hmp := metaSizeOf_pos oid payload.length
        have hlen3 : (encodeRecord oid payload ++ rest).length =
            (encodeRecord oid payload).length + rest.length := by simp
        omega
      have hoffeq : off + (((strBytes oid).length : Int) +
          ((natDigits payload.length).length : Int) + 1) +
          (payload.length : Int) + 2 =
          off + m.metaSize + m.size + 2 := by
        rw [hms, hsz, metaSizeOf]
      have hih := ih hrec (fun q hq => hval q (by simp [hq])) hfuel2
      have hmeq : (ObjMeta.mk off (((strBytes oid).length : Int) +
          ((natDigits payload.length).length : Int) + 1)
          ((payload.length : Nat) : Int)) = m := by
        have h3 : m.metaSize = ((strBytes oid).length : Int) +
            ((natDigits payload.length).length : Int) + 1 := by
          rw [hms, metaSizeOf]
        cases m with
        | mk o ms sz =>
          exact congrArg₂ (fun a b => ObjMeta.mk a b _) (Eq.symm hoff)
            (Eq.symm h3) ▸ congrArg (ObjMeta.mk off _) (Eq.symm hsz) ▸ rfl
      rw [hshape]
      simp only [splitAtSpace_append _ hid, splitAtSpace_append _ hnd,
        parseIntBytes_natDigits, if_neg hc1, if_neg hc2, hdrop, hoffeq, hih,
        bytesToStr_strBytes]
      rw [hmeq]

theorem parseRecs_encode {c : List (String × ObjMeta)} {file : List Nat}
    (henc : chainEnc c 0 file) (hval : ∀ q ∈ c, validId q.1 = true) :
    parseRecs file 0 = .ok c := by
  have h := @parseGo_encode c (file.length + 1) 0 file [] henc hval
    (by simp) (by simp)
  rw [List.append_nil] at h
  exact h

/-- Soundness of the loader: whenever it succeeds, the input was a sequence
of records it accepts followed by a trailing fragment with no space byte. -/
theorem parseGo_sound {fuel : Nat} {bytes : List Nat} {off : Int}
    {c : List (String × ObjMeta)} (h : parseGo fuel bytes off = .ok c) :
    ∃ frag, parsedChain c off bytes frag ∧ spaceByte ∉ frag := by
  induction fuel generalizing bytes off c with
  | zero => exact absurd h (by simp [parseGo])
  | succ f ih =>
    rw [parseGo] at h
    cases h1 : splitAtSpace bytes with
    | none =>
      simp only [h1] at h
      injection h with h
      subst h
      exact ⟨bytes, rfl, splitAtSpace_none h1⟩
    | some p1 =>
      obtain ⟨idB, rest1⟩ := p1
      simp only [h1] at h
      cases h2 : splitAtSpace rest1 with
      | none => simp only [h2] at h; exact absurd h (by simp)
      | some p2 =>
        obtain ⟨szB, rest2⟩ := p2
        simp only [h2] at h
        cases hint : parseIntBytes szB with
        | none => simp only [hint] at h; exact absurd h (by simp)
        | some sz =>
          simp only [hint] at h
          by_cases hneg : sz + 1 < 0
          · rw [if_pos hneg] at h; exact absurd h (by simp)
          rw [if_neg hneg] at h
          by_cases hshort : rest2.length < (sz + 1).toNat
          · rw [if_pos hshort] at h; exact absurd h (by simp)
          rw [if_neg hshort] at h
          cases hrec : parseGo f (rest2.drop ((sz + 1).toNat))
              (off + ((idB.length : Int) + szB.length + 1) + sz + 2) with
          | error e => simp only [hrec] at h; exact absurd h (by simp)
          | ok tl =>
            simp only [hrec] at h
            injection h with h
            subst h
            obtain ⟨frag, hpc, hfrag⟩ := ih hrec
            refine ⟨frag, ⟨rest2.drop ((sz + 1).toNat), ?_, ?_⟩, hfrag⟩
            · refine ⟨idB, szB, sz, rest2.take ((sz + 1).toNat),
                (splitAtSpace_some h1).2, (splitAtSpace_some h2).2, rfl,
                hint, rfl, by omega, ?_, ?_⟩
              · rw [List.length_take]
                omega
              · conv_lhs => rw [(splitAtSpace_some h1).1,
                  (splitAtSpace_some h2).1,
                  ← List.take_append_drop ((sz + 1).toNat) rest2]
                simp [List.append_assoc]
            · exact hpc

theorem parseRecs_sound {bytes : List Nat} {off : Int}
    {c : List (String × ObjMeta)} (h : parseRecs bytes off = .ok c) :
    ∃ frag, parsedChain c off bytes frag ∧ spaceByte ∉ frag :=
  parseGo_sound h

/-- Claim C1 witness — `Store` of the payload `"h \n"` (bytes 104, 32, 10:
containing a space and a newline) under `o1`/`b1` on the empty store, then
`Retrieve`, yields exactly that payload, found, no error. -/
theorem store_retrieve_roundtrip_witness :
    Retrieve "o1" "b1" (Store [104, 32, 10] "o1" "b1" fsEmpty).2 =
      ⟨some [104, 32, 10], true, false⟩ :=
  store_retrieve_roundtrip [104, 32, 10] fsEmpty fsWF_empty (by decide)
    (by decide)

/-- Claim C2 counterexample — it is not true that an erroring operation has
mutated nothing: `Store` into a previously absent bucket registers the
bucket and creates its empty file before the first failable step, so when
temp-file creation then fails, the error is returned with the registry
already changed (on the empty store, bucket `b` appears out of nowhere). -/
theorem claim_C2_counterexample :
    ¬ (∀ (fail : IoFail) (p : List Nat) (oid bid : String) (fs : FS),
        ((StoreF fail p oid bid fs).1 = .error () →
          (StoreF fail p oid bid fs).2 = fs) ∧
        ((DeleteF fail oid bid fs).1 = .error () →
          (DeleteF fail oid bid fs).2 = fs)) := by
  intro h
  have h2 := (h .tempFile [97] "o" "b" fsEmpty).1 rfl
  have h3 : (some emptyBucket : Option Bucket) = Option.none := by
    calc some emptyBucket = (StoreF .tempFile [97] "o" "b" fsEmpty).2 "b" :=
          rfl
      _ = fsEmpty "b" := by rw [h2]
      _ = Option.none := rfl
  exact absurd h3 (by simp)

/-- Claim C2 amended — an operation that returns an error has not mutated
the on-disk state or the in-memory metadata, except that a `Store` into a
previously unregistered bucket first registers the bucket and then creates
its empty file, so an error in that operation leaves the registry entry
behind: with no bucket file at all when creating the file itself failed,
and with an empty bucket file when a later step failed. `Delete` never
mutates anything on error, and `Retrieve` never mutates state at all. -/
theorem store_delete_error_effects (fail : IoFail) (p : List Nat)
    (oid bid : String) (fs : FS) :
    ((StoreF fail p oid bid fs).1 = .error () →
      (fs bid ≠ Option.none → (StoreF fail p oid bid fs).2 = fs) ∧
      (fs bid = Option.none →
        (StoreF fail p oid bid fs).2 = update fs bid
          (some (if fail = .createFile then bucketNoFile
            else emptyBucket)))) ∧
    ((DeleteF fail oid bid fs).1 = .error () →
      (DeleteF fail oid bid fs).2 = fs) := by
  refine ⟨?_, ?_⟩
  · intro herr
    refine ⟨?_, ?_⟩
    · intro hne
      obtain ⟨bk, hb⟩ : ∃ bk, fs bid = some bk := by
        cases hfs : fs bid with
        | none => exact absurd hfs hne
        | some bk => exact ⟨bk, rfl⟩
      by_cases hf : fail = .tempFile
      · simp [StoreF, hb, hf]
      · cases hl : chainLookup bk.chain oid with
        | none =>
          cases hfb : bk.file with
          | none => simp [StoreF, hb, hf, hl, hfb]
          | some bytes =>
            by_cases hf2 : fail = .copyOld ∨ fail = .writeRecord
            · simp [StoreF, hb, hf, hl, hfb, hf2]
            · by_cases hf3 : fail = .rename
              · simp [StoreF, hb, hf, hl, hfb, hf2, hf3]
              · simp [StoreF, hb, hf, hl, hfb, hf2, hf3] at herr
        | some m =>
          cases hfb : bk.file with
          | none => simp [StoreF, hb, hf, hl, hfb]
          | some bytes =>
            by_cases hf2 : fail = .replaceErr
            · simp [StoreF, hb, hf, hl, hfb, hf2]
            · by_cases hf3 : fail = .rename
              · simp [StoreF, hb, hf, hl, hfb, hf2, hf3]
              · simp [StoreF, hb, hf, hl, hfb, hf2, hf3] at herr
    · intro hno
      by_cases hf : fail = .createFile
      · simp [StoreF, hno, hf]
      · by_cases hf2 : fail = .tempFile ∨ fail = .writeRecord ∨
            fail = .rename
        · simp [StoreF, hno, hf, hf2, update_update]
        · simp [StoreF, hno, hf, hf2] at herr
  · intro herr
    cases hb : fs bid with
    | none => simp [DeleteF, hb] at herr
    | some bk =>
      cases hl : chainLookup bk.chain oid with
      | none => simp [DeleteF, hb, hl] at herr
      | some m =>
        by_cases hlen : bk.chain.length = 1
        · by_cases hf : fail = .removeFile
          · simp [DeleteF, hb, hl, hlen, hf] at herr
          · simp [DeleteF, hb, hl, hlen, hf] at herr
        · by_cases hf : fail = .tempFile ∨ fail = .replaceErr
          · simp [DeleteF, hb, hl, hlen, hf]
          · cases hfb : bk.file with
            | none => simp [DeleteF, hb, hl, hlen, hf, hfb]
            | some bytes =>
              by_cases hf3 : fail = .rename
              · simp [DeleteF, hb, hl, hlen, hf, hfb, hf3]
              · simp [DeleteF, hb, hl, hlen, hf, hfb, hf3] at herr

/-- Claim C2 amended witness — an `os.OpenFile` failure while storing into
the previously unregistered bucket `b` returns an error and leaves behind
the registry entry with no bucket file, and a rename failure while storing
a fresh object into the existing bucket `b` leaves the state exactly as it
was. -/
theorem store_delete_error_effects_witness :
    (StoreF .createFile [97] "o" "b" fsEmpty).2 =
      update fsEmpty "b" (some bucketNoFile) ∧
    (StoreF .rename [97, 98] "o9" "b" fsOneObj).2 = fsOneObj :=
  ⟨by
    have h := ((store_delete_error_effects .createFile [97] "o" "b"
      fsEmpty).1 rfl).2 rfl
    simpa using h,
   ((store_delete_error_effects .rename [97, 98] "o9" "b" fsOneObj).1
     rfl).1 (by decide)⟩

/-- Claim C3 counterexample — the claim says a replacing record of different
size moves to the end of the file; in fact it is rewritten in place. In the
two-object bucket `b` (`o1 ↦ "a"`, `o2 ↦ "bbb"`), replacing `o1` with the
3-byte payload `"xyz"` leaves `o1` at offset 0 while the file is 18 bytes
long, so `o1`'s record (9 bytes) does not end at end-of-file. -/
theorem claim_C3_counterexample :
    ¬ (∀ (fs : FS) (p : List Nat) (oid bid : String) (bk : Bucket)
        (m : ObjMeta),
        fsWF fs → fs bid = some bk → chainLookup bk.chain oid = some m →
        (p.length : Int) ≠ m.size →
        ∃ bk2 m2 bytes, (Store p oid bid fs).2 bid = some bk2 ∧
          chainLookup bk2.chain oid = some m2 ∧ bk2.file = some bytes ∧
          m2.offset + m2.metaSize + m2.size + 2 =
            ((bytes.length : Nat) : Int)) := by
  intro h
  have hwf1 : fsWF fsOneObj := fsWF_Store fsWF_empty (by decide) _ _
  have hwf2 : fsWF fsTwoObjs := fsWF_Store hwf1 (by decide) _ _
  obtain ⟨bk2, m2, bytes, hbk2, hm2, hfb, hend⟩ :=
    h fsTwoObjs (strBytes "xyz") "o1" "b"
    ⟨some (strBytes "o1 1 a\no2 3 bbb\n"),
      [("o1", ⟨0, 4, 1⟩), ("o2", ⟨7, 4, 3⟩)]⟩
    ⟨0, 4, 1⟩ hwf2 (by rfl) (by decide) (by decide)
  have hbk : bk2 = ⟨some (strBytes "o1 3 xyz\no2 3 bbb\n"),
      [("o1", ⟨0, 4, 3⟩), ("o2", ⟨9, 4, 3⟩)]⟩ := by
    have hc : (Store (strBytes "xyz") "o1" "b" fsTwoObjs).2 "b" =
        some ⟨some (strBytes "o1 3 xyz\no2 3 bbb\n"),
          [("o1", ⟨0, 4, 3⟩), ("o2", ⟨9, 4, 3⟩)]⟩ := by rfl
    rw [hc] at hbk2
    injection hbk2 with hbk2
    exact hbk2.symm
  rw [hbk] at hm2 hfb
  have hm : m2 = ⟨0, 4, 3⟩ := by
    have hc : chainLookup [("o1", (⟨0, 4, 3⟩ : ObjMeta)),
        ("o2", ⟨9, 4, 3⟩)] "o1" = some ⟨0, 4, 3⟩ := by decide
    rw [hc] at hm2
    injection hm2 with hm2
    exact hm2.symm
  have hby : bytes = strBytes "o1 3 xyz\no2 3 bbb\n" := by
    have hfb2 : (some (strBytes "o1 3 xyz\no2 3 bbb\n") :
        Option (List Nat)) = some bytes := hfb
    exact (Option.some.inj hfb2).symm
  rw [hm, hby] at hend
  have : (((strBytes "o1 3 xyz\no2 3 bbb\n").length : Nat) : Int) = 18 := by
    decide
  rw [this] at hend
  exact absurd hend (by decide)

/-- Claim C3 amended — a replacing `Store` always keeps the object's byte
offset (the record is rewritten in place, whether or not the size changed);
its header and payload sizes are updated to those of the new payload, and
only physically later records move. -/
theorem store_replace_keeps_offset {fs : FS} {bid : String} {bk : Bucket}
    {oid : String} {m : ObjMeta} (hwf : fsWF fs) (hb : fs bid = some bk)
    (hl : chainLookup bk.chain oid = some m) (p : List Nat) :
    ∃ bk2 m2, (Store p oid bid fs).2 bid = some bk2 ∧
      chainLookup bk2.chain oid = some m2 ∧
      m2.offset = m.offset ∧ m2.size = (p.length : Int) ∧
      m2.metaSize = metaSizeOf oid p.length := by
  obtain ⟨pre, post, b1, payload, b3, hchain, hpre, hfile, hoff, hsz, hms,
    h1, hrec⟩ := bucketWF_located (hwf bid bk hb) hl
  rw [Store_replace p hb hchain hpre hfile hoff hsz hms]
  by_cases hcase : (p.length : Int) = m.size
  · rw [if_pos hcase]
    refine ⟨_, m, update_same fs bid _, hl, rfl, by omega, ?_⟩
    rw [hms]
    congr 1
    omega
  · rw [if_neg hcase]
    exact ⟨_, ⟨m.offset, metaSizeOf oid p.length, (p.length : Int)⟩,
      update_same fs bid _, chainLookup_append_right _ hpre, rfl, rfl, rfl⟩

/-- Claim C3 amended witness — replacing `o1`'s 1-byte payload with the
3-byte `"xyz"` in the two-object bucket keeps `o1` at its old offset. -/
theorem store_replace_keeps_offset_witness :
    ∃ bk2 m2,
      (Store (strBytes "xyz") "o1" "b" fsTwoObjs).2 "b" = some bk2 ∧
      chainLookup bk2.chain "o1" = some m2 ∧
      m2.offset = (⟨0, 4, 1⟩ : ObjMeta).offset ∧
      m2.size = ((strBytes "xyz").length : Int) ∧
      m2.metaSize = metaSizeOf "o1" (strBytes "xyz").length :=
  store_replace_keeps_offset
    (fsWF_Store (fsWF_Store fsWF_empty (by decide) _ _) (by decide) _ _)
    (by rfl) (by decide) (strBytes "xyz")

theorem natDigits_length_pos (n : Nat) : 0 < (natDigits n).length :=
  List.length_pos.mpr (natDigits_ne_nil n)

theorem natDigits_length_mono {a b : Nat} (h : a ≤ b) :
    (natDigits a).length ≤ (natDigits b).length := by
  induction b using Nat.strong_induction_on generalizing a with
  | _ b ih =>
    by_cases hb10 : b < 10
    · have ha10 : a < 10 := by omega
      rw [natDigits_eq a, if_pos ha10, natDigits_eq b, if_pos hb10]
      simp
    · rw [natDigits_eq b, if_neg hb10]
      by_cases ha10 : a < 10
      · rw [natDigits_eq a, if_pos ha10]
        have := natDigits_length_pos (b / 10)
        simp only [List.length_singleton, List.length_append]
        omega
      · rw [natDigits_eq a, if_neg ha10]
        have hdiv : a / 10 ≤ b / 10 := Nat.div_le_div_right h
        have := ih (b / 10) (Nat.div_lt_self (by omega) (by norm_num)) hdiv
        simp only [List.length_append, List.length_singleton]
        omega

/-- The total encoded length determines the payload length: the digit count
of `n` plus `n` is strictly monotone in `n`. -/
theorem natDigits_len_add_inj {a b : Nat}
    (h : ((natDigits a).length : Int) + a = (natDigits b).length + b) :
    a = b := by
  rcases lt_trichotomy a b with hlt | heq | hgt
  · have := natDigits_length_mono (show a ≤ b by omega)
    omega
  · exact heq
  · have := natDigits_length_mono (show b ≤ a by omega)
    omega

/-- Claim C4 — a replacing `Store` of identical encoded length leaves every
object's offset unchanged; with a different encoded length, the objects
physically before the replaced record keep their offsets and every object
physically after it is shifted by exactly `newEncodedSize - oldEncodedSize`
(encoded size = header + payload + 2). -/
theorem store_replace_offset_frame {fs : FS} {bid : String} {bk : Bucket}
    {oid : String} {m : ObjMeta} {pre post : List (String × ObjMeta)}
    (hwf : fsWF fs) (hb : fs bid = some bk)
    (hchain : bk.chain = pre ++ (oid, m) :: post)
    (hpre : oid ∉ keysOf pre) (p : List Nat) :
    ∃ bk2, (Store p oid bid fs).2 bid = some bk2 ∧
      ((metaSizeOf oid p.length + p.length + 2 = m.metaSize + m.size + 2 →
        bk2.chain = bk.chain) ∧
      (metaSizeOf oid p.length + p.length + 2 ≠ m.metaSize + m.size + 2 →
        bk2.chain = pre ++ (oid, ⟨m.offset, metaSizeOf oid p.length,
            (p.length : Int)⟩) ::
          shiftChain ((metaSizeOf oid p.length + (p.length : Int) + 2)
            - (m.metaSize + m.size + 2)) post)) := by
  obtain ⟨⟨bytes, hfb, henc⟩, hnd, hv⟩ := hwf bid bk hb
  rw [hchain] at henc
  obtain ⟨b1, b2, hb12, he1, he2⟩ := chainEnc_append_elim henc
  obtain ⟨payload, rest, hoff0, hsz, hms, hb2, hrec⟩ := he2
  have hfile : bk.file = some (b1 ++ encodeRecord oid payload ++ rest) := by
    rw [hfb, hb12, hb2, List.append_assoc]
  have hoff : ((b1.length : Nat) : Int) = m.offset := by omega
  have hiff : (metaSizeOf oid p.length + p.length + 2 =
      m.metaSize + m.size + 2) ↔ ((p.length : Int) = m.size) := by
    constructor
    · intro he
      rw [hms, hsz] at he
      simp only [metaSizeOf] at he
      have := natDigits_len_add_inj
        (show ((natDigits p.length).length : Int) + p.length =
          (natDigits payload.length).length + payload.length by omega)
      omega
    · intro he
      have hpl : p.length = payload.length := by omega
      rw [hms, hsz, hpl]
  rw [Store_replace p hb hchain hpre hfile hoff hsz hms]
  by_cases hcase : (p.length : Int) = m.size
  · rw [if_pos hcase]
    exact ⟨_, update_same fs bid _,
      fun _ => rfl, fun hne => absurd (hiff.mpr hcase) hne⟩
  · rw [if_neg hcase]
    refine ⟨_, update_same fs bid _,
      fun he => absurd (hiff.mp he) hcase, fun _ => ?_⟩
    have hd : (metaSizeOf oid p.length + (p.length : Int) + 2)
        - (m.metaSize + m.size + 2) =
        metaSizeOf oid p.length + p.length - m.metaSize - m.size := by ring
    rw [hd]

/-- Claim C4 witness — in the two-object bucket (`o1` then `o2`), replacing
`o1` (old encoded size 7) by the payload `"xyz"` (new encoded size 9) keeps
`o1`'s offset and shifts `o2` by exactly 2. -/
theorem store_replace_offset_frame_witness :
    ∃ bk2, (Store (strBytes "xyz") "o1" "b" fsTwoObjs).2 "b" = some bk2 ∧
      ((metaSizeOf "o1" (strBytes "xyz").length +
          (strBytes "xyz").length + 2 =
        (⟨0, 4, 1⟩ : ObjMeta).metaSize + (⟨0, 4, 1⟩ : ObjMeta).size + 2 →
        bk2.chain = (Bucket.mk (strBytes "o1 1 a\no2 3 bbb\n")
          [("o1", ⟨0, 4, 1⟩), ("o2", ⟨7, 4, 3⟩)]).chain) ∧
      (metaSizeOf "o1" (strBytes "xyz").length +
          (strBytes "xyz").length + 2 ≠
        (⟨0, 4, 1⟩ : ObjMeta).metaSize + (⟨0, 4, 1⟩ : ObjMeta).size + 2 →
        bk2.chain = [] ++ ("o1", ⟨(⟨0, 4, 1⟩ : ObjMeta).offset,
            metaSizeOf "o1" (strBytes "xyz").length,
            ((strBytes "xyz").length : Int)⟩) ::
          shiftChain ((metaSizeOf "o1" (strBytes "xyz").length +
              ((strBytes "xyz").length : Int) + 2) -
            ((⟨0, 4, 1⟩ : ObjMeta).metaSize +
              (⟨0, 4, 1⟩ : ObjMeta).size + 2))
            [("o2", ⟨7, 4, 3⟩)])) :=
  store_replace_offset_frame
    (fsWF_Store (fsWF_Store fsWF_empty (by decide) _ _) (by decide) _ _)
    (by rfl) (by rfl) (by decide) (strBytes "xyz")

/-- Claim C5 — deleting the sole object of a bucket removes the bucket file
and the registry entry outright. No temp-file rewrite happens: injecting a
failure into the temp-file, rewrite or rename machinery does not change the
outcome, because that code path is never reached. Afterwards, `Retrieve` of
anything in that bucket reports not-found with no error. -/
theorem delete_sole_removes_bucket {fs : FS} {bid : String} {bk : Bucket}
    {oid : String} {m : ObjMeta} (hb : fs bid = some bk)
    (hchain : bk.chain = [(oid, m)]) (fail : IoFail)
    (hfail : fail ≠ .removeFile) :
    DeleteF fail oid bid fs = (.ok true, update fs bid Option.none) ∧
    ∀ oid2, RetrieveF .none oid2 bid (update fs bid Option.none) =
      ⟨Option.none, false, false⟩ := by
  constructor
  · have hl : chainLookup bk.chain oid = some m := by
      rw [hchain, chainLookup, if_pos rfl]
    have hlen : bk.chain.length = 1 := by rw [hchain]; rfl
    simp [DeleteF, hb, hl, hlen, hfail]
  · intro oid2
    unfold RetrieveF
    rw [update_same]

/-- Claim C5 witness — deleting `o1` from the one-object bucket `b` (with a
temp-file failure injected, which is never hit) removes the bucket, and a
subsequent `Retrieve` of `o1` or anything else is a clean not-found. -/
theorem delete_sole_removes_bucket_witness :
    DeleteF .tempFile "o1" "b" fsOneObj =
      (.ok true, update fsOneObj "b" Option.none) ∧
    ∀ oid2, RetrieveF .none oid2 "b" (update fsOneObj "b" Option.none) =
      ⟨Option.none, false, false⟩ :=
  delete_sole_removes_bucket (by rfl) (by rfl) .tempFile (by decide)

/-- Claim C6 — deleting a stored object twice returns `(true, nil)` then
`(false, nil)`: the second call finds neither the object (multi-object
bucket) nor the bucket (sole-object bucket) and reports not-deleted without
an error. -/
theorem delete_twice {fs : FS} {bid : String} {bk : Bucket} {oid : String}
    {m : ObjMeta} (hwf : fsWF fs) (hb : fs bid = some bk)
    (hl : chainLookup bk.chain oid = some m) :
    (Delete oid bid fs).1 = .ok true ∧
    (Delete oid bid (Delete oid bid fs).2).1 = .ok false := by
  by_cases hlen : bk.chain.length = 1
  · rw [Delete_sole hb hl hlen]
    refine ⟨rfl, ?_⟩
    rw [Delete_no_bucket (update_same fs bid _)]
  · obtain ⟨pre, post, b1, payload, b3, hchain, hpre, hfile, hoff, hsz, hms,
      h1, hrec⟩ := bucketWF_located (hwf bid bk hb) hl
    rw [Delete_multi hb hchain hpre hfile hoff hsz hms hlen]
    refine ⟨rfl, ?_⟩
    have hnd := (hwf bid bk hb).2.1
    rw [hchain, keysOf_append, keysOf_cons] at hnd
    have hpost : oid ∉ keysOf post := by
      rcases List.nodup_append.mp hnd with ⟨-, hnd2, -⟩
      exact (List.nodup_cons.mp hnd2).1
    have hnone : chainLookup
        (pre ++ shiftChain (-(m.metaSize + m.size + 2)) post) oid =
        Option.none := by
      apply chainLookup_eq_none
      rw [keysOf_append, keysOf_shiftChain]
      simp only [List.mem_append, not_or]
      exact ⟨hpre, hpost⟩
    rw [Delete_no_obj (update_same fs bid _) hnone]

/-- Claim C6 witness — deleting `o1` from the two-object bucket twice gives
`(true, nil)` then `(false, nil)`. -/
theorem delete_twice_witness :
    (Delete "o1" "b" fsTwoObjs).1 = .ok true ∧
    (Delete "o1" "b" (Delete "o1" "b" fsTwoObjs).2).1 = .ok false :=
  delete_twice
    (fsWF_Store (fsWF_Store fsWF_empty (by decide) _ _) (by decide) _ _)
    (by rfl) (by rfl)

/-- Claim C7 counterexample — the loader does not fail on every file that is
not a concatenation of well-formed records: the two-byte file `"xy"`
(bytes 120, 121) encodes no record at all, yet `getObjectsMetadata` hits EOF
while scanning for the first space, treats it as end of input, and returns
success with zero records — the malformed trailing fragment is silently
dropped (and the bucket file would then even be deleted as empty). -/
theorem claim_C7_counterexample :
    ¬ (∀ file : List Nat, (¬ ∃ c, chainEnc c 0 file) →
        ∃ e, parseRecs file 0 = .error e) := by
  intro h
  have hnwf : ¬ ∃ c, chainEnc c 0 [120, 121] := by
    intro ⟨c, hc⟩
    cases c with
    | nil =>
      have hc2 : ([120, 121] : List Nat) = [] := hc
      exact absurd hc2 (by decide)
    | cons e tl =>
      obtain ⟨oid, m⟩ := e
      obtain ⟨payload, rest, -, -, -, hb, -⟩ := hc
      have hmem : spaceByte ∈ ([120, 121] : List Nat) := by
        rw [hb]
        simp [encodeRecord]
      exact absurd hmem (by decide)
  obtain ⟨e, he⟩ := h [120, 121] hnwf
  have hok : parseRecs [120, 121] 0 = .ok [] := rfl
  rw [hok] at he
  exact absurd he (by simp)

/-- Claim C7 amended — during bootstrap, a malformed or truncated record
aborts loading with an error, except when the malformation is a trailing
fragment containing no space byte: the loader treats that as end of input
and silently drops it. Equivalently (this theorem): whenever loading
succeeds, the file consists of records the codec accepts followed by a
space-free trailing fragment. -/
theorem loader_ok_means_records_and_spaceless_tail {file : List Nat}
    {c : List (String × ObjMeta)} (h : parseRecs file 0 = .ok c) :
    ∃ frag, parsedChain c 0 file frag ∧ spaceByte ∉ frag :=
  parseGo_sound h

/-- Claim C7 amended witness — the file `"o1 5 hello\nxy"` loads
successfully as the single record `o1` with the fragment `"xy"` dropped. -/
theorem loader_ok_means_records_witness :
    ∃ frag, parsedChain [("o1", ⟨0, 4, 5⟩)] 0
      (strBytes "o1 5 hello\nxy") frag ∧ spaceByte ∉ frag :=
  loader_ok_means_records_and_spaceless_tail rfl

/-- Claim C8 — for every sequence of successful `Store`/`Delete` operations
with valid identifiers starting from an empty store, re-running the
bootstrap loader on each surviving bucket's on-disk bytes reconstructs
exactly the in-memory metadata: the same `(offset, metaSize, size)` triple
for every surviving object and the same physical order (hence the same
`prev`/`next` chain). -/
theorem bootstrap_reload_fidelity (ops : List Op)
    (hops : ∀ op ∈ ops, opValid op) (bid : String) (bk : Bucket)
    (h : runOps ops fsEmpty bid = some bk) :
    ∃ bytes, bk.file = some bytes ∧ parseRecs bytes 0 = .ok bk.chain := by
  obtain ⟨⟨bytes, hfb, henc⟩, hnd, hval⟩ :=
    fsWF_runOps fsWF_empty hops bid bk h
  exact ⟨bytes, hfb, parseRecs_encode henc hval⟩

/-- Claim C8 witness — after `Store a→o1`, `Store bbb→o2`, `Delete o1` in
bucket `b`, the surviving file `"o2 3 bbb\n"` re-parses to exactly the
in-memory chain `[("o2", (0, 4, 3))]`. -/
theorem bootstrap_reload_fidelity_witness :
    ∃ bytes, (Bucket.mk (some (strBytes "o2 3 bbb\n"))
      [("o2", ⟨0, 4, 3⟩)]).file = some bytes ∧
      parseRecs bytes 0 =
        .ok (Bucket.mk (some (strBytes "o2 3 bbb\n"))
          [("o2", ⟨0, 4, 3⟩)]).chain :=
  bootstrap_reload_fidelity
    [.store (strBytes "a") "o1" "b", .store (strBytes "bbb") "o2" "b",
      .del "o1" "b"]
    (by
      intro op hop
      simp only [List.mem_cons, List.not_mem_nil, or_false] at hop
      rcases hop with h | h | h
      · rw [h]; exact (by decide : validId "o1" = true)
      · rw [h]; exact (by decide : validId "o2" = true)
      · rw [h]; exact trivial)
    "b" ⟨some (strBytes "o2 3 bbb\n"), [("o2", ⟨0, 4, 3⟩)]⟩ (by rfl)

/-- Claim C9 — after every completed `Store` or `Delete`, every registered
bucket's metadata chain satisfies the layout invariant: the head entry has
offset 0 and each entry's successor sits at
`offset + metaSize + size + 2`. -/
theorem op_preserves_layout (op : Op) {fs : FS} (hwf : fsWF fs)
    (hop : opValid op) (bid : String) (bk : Bucket)
    (h : applyOp op fs bid = some bk) : chainLayout 0 bk.chain := by
  obtain ⟨⟨bytes, hfb, henc⟩, -, -⟩ := fsWF_applyOp hwf hop bid bk h
  exact chainEnc_layout henc

/-- Claim C9 witness — after storing `"hello"` under `o1` into the empty
store, bucket `b1`'s chain satisfies the layout invariant. -/
theorem op_preserves_layout_witness :
    chainLayout 0 [("o1", (⟨0, 4, 5⟩ : ObjMeta))] :=
  op_preserves_layout (.store (strBytes "hello") "o1" "b1") fsWF_empty
    (by decide : validId "o1" = true) "b1"
    ⟨some (strBytes "o1 5 hello\n"), [("o1", ⟨0, 4, 5⟩)]⟩ (by rfl)

/-- Claim C10 — `bucketIdToMutexIndex` is a pure function of the bucket id
(so every call returns the same value), its error branches are dead code
(the FNV `Write` writes everything and never fails, per the `hash.Hash`
contract), and the returned index is the FNV-1 hash modulo `numMutexes`,
hence strictly below `numMutexes = 100`: every access to the stripe-lock
array `bucketsMu` is in bounds. -/
theorem mutex_index_bounded (bucketId : String) :
    bucketIdToMutexIndex bucketId =
      .ok (fnv32 (strBytes bucketId) % numMutexes) ∧
    fnv32 (strBytes bucketId) % numMutexes < numMutexes := by
  constructor
  · simp [bucketIdToMutexIndex, hashWriteResult]
  · exact Nat.mod_lt _ (by norm_num [numMutexes])

end Objstore
